/-
  Verification of `testharnessreport.js` (testharness.js vendor integration).

  Shallow embedding: JavaScript objects used as string-keyed dictionaries are
  modelled as association lists in insertion order (JS for-in enumeration
  order for string keys is insertion order, and object keys are unique).
  Metadata values (the values stored under the recognized keys `help`,
  `assert`, `author`) are modelled by `MetaVal`: either an array of strings
  (the intended shape) or a scalar string (the defensively-handled shape).
-/
import Mathlib

namespace TestharnessReport

/-- A metadata value: an array of strings (the intended sequence-of-lines
shape) or a scalar string. -/
inductive MetaVal where
  | arr (xs : List String)
  | str (s : String)
deriving DecidableEq, Repr

/-- A per-test sub-mapping from recognized keys to values
(`testMetadata` / `cachedTestMetadata` in the source). -/
abbrev TestMeta := List (String × MetaVal)

/-- A metadata mapping from test name to sub-mapping
(`metadata_generator.metadata` / `cached_metadata` in the source). -/
abbrev MetaMap := List (String × TestMeta)

/-- `metadataProperties` from the source: `['help', 'assert', 'author']`. -/
def metadataProperties : List String := ["help", "assert", "author"]

/-- JS `obj.hasOwnProperty(k)` on an association-list object. -/
def hasKey (m : List (String × α)) (k : String) : Bool :=
  (m.lookup k).isSome

/-- JS `delete obj[k]` on an association-list object. -/
def eraseKey (m : List (String × α)) (k : String) : List (String × α) :=
  m.filter (fun p => p.1 ≠ k)

/-- `extractFromTest` from the source: for each recognized key, in the fixed
order of `metadataProperties`, copy the test's own property value under that
key when present. -/
def extractFromTest (properties : List (String × MetaVal)) : TestMeta :=
  metadataProperties.filterMap (fun meta =>
    (properties.lookup meta).map (fun v => (meta, v)))

/-- JS `v.length` on a metadata value: array length, or string length for a
scalar string. -/
def metaLen : MetaVal → Nat
  | .arr xs => xs.length
  | .str s => s.length

/-- JS `v[index]` on a metadata value, as compared by the validator's inner
loop: an array yields its element, a scalar string yields the one-character
string at that position. -/
def metaElem : MetaVal → Nat → String
  | .arr xs, i => xs.getD i ""
  | .str s, i => String.mk [s.data.getD i ' ']

/-- The fragment of JS values needed to give semantics to the expression
`! cachedTestMetadata[meta] instanceof Array` exactly as written. -/
inductive JSVal where
  | vStr (s : String)
  | vArr (xs : List String)
  | vBool (b : Bool)
deriving DecidableEq, Repr

/-- The JS value denoted by a metadata value. -/
def MetaVal.toJS : MetaVal → JSVal
  | .arr xs => .vArr xs
  | .str s => .vStr s

/-- JS `ToBoolean`: arrays are truthy objects, a string is truthy iff
non-empty. -/
def jsToBoolean : JSVal → Bool
  | .vStr s => !(s = "")
  | .vArr _ => true
  | .vBool b => b

/-- JS logical not `!v`: a Boolean value. -/
def jsNot (v : JSVal) : JSVal := .vBool (!jsToBoolean v)

/-- JS `v instanceof Array`. -/
def instanceofArray : JSVal → Bool
  | .vArr _ => true
  | _ => false

/-- The condition of the sequence-type check in `validateCache`, exactly as
the source parses: `(! cachedTestMetadata[meta]) instanceof Array` —
`!` binds tighter than `instanceof`, so the negation is applied first. -/
def seqTypeCheckCondition (v : MetaVal) : Bool :=
  instanceofArray (jsNot v.toJS)

/-- The body of the `metaIndex` loop of `validateCache` for a single
recognized key `meta`: `true` means the loop continues, `false` means the
source's `return false`. -/
def validateMetaKey (testMetadata cachedTestMetadata : TestMeta)
    (meta : String) : Bool :=
  match cachedTestMetadata.lookup meta, testMetadata.lookup meta with
  | some cv, some tv =>
    if seqTypeCheckCondition cv then false
    else if metaLen cv = metaLen tv then
      (List.range (metaLen cv)).all (fun i => metaElem cv i = metaElem tv i)
    else false
  | none, none => true
  | _, _ => false

/-- The `testName` loop of `validateCache`: walks the extracted mapping,
deleting each matched entry from the cached mapping (`delete
cached_metadata[testName]`).  Returns the cached mapping as left at the
moment the loop stops, paired with `false` for an early `return false` and
`true` for normal completion. -/
def drainCache : MetaMap → MetaMap → MetaMap × Bool
  | [], cached => (cached, true)
  | (testName, testMetadata) :: rest, cached =>
    match cached.lookup testName with
    | none => (cached, false)
    | some cachedTestMetadata =>
      let cached' := eraseKey cached testName
      if metadataProperties.all
          (fun meta => validateMetaKey testMetadata cachedTestMetadata meta) then
        drainCache rest cached'
      else (cached', false)

/-- `validateCache` from the source: drain the cached mapping against the
extracted mapping, then the final `for (var testName in cached_metadata)
return false` loop — succeed iff nothing is left. -/
def validateCache (metadata cached : MetaMap) : Bool :=
  let (remaining, ok) := drainCache metadata cached
  ok && remaining.isEmpty

/-! ## `process`: extraction loop, duplicate check and message selection -/

/-- A completed test as handed to the completion callback: its `name` and
its own-property `properties` mapping (only metadata-shaped values are
modelled, which is all the extractor reads). -/
structure TestRec where
  name : String
  properties : List (String × MetaVal)
deriving DecidableEq, Repr

/-- The own enumerable function-valued properties of `Object.prototype`
that a plain object literal `{}` inherits; looking any of them up on the
metadata object yields a (truthy) function value. -/
def objectPrototypeKeys : List String :=
  ["constructor", "toString", "toLocaleString", "valueOf", "hasOwnProperty",
   "isPrototypeOf", "propertyIsEnumerable",
   "__defineGetter__", "__defineSetter__", "__lookupGetter__",
   "__lookupSetter__", "__proto__"]

/-- Truthiness of `this.metadata[test.name]` in the duplicate check: a
property read that falls back to the `Object.prototype` chain.  An own hit
is always an object (the extractor's result), hence truthy; otherwise the
read finds an inherited prototype member iff the name is one of
`objectPrototypeKeys`, and those are all truthy. -/
def truthyGet (m : MetaMap) (name : String) : Bool :=
  hasKey m name || name ∈ objectPrototypeKeys

/-- The extraction loop of `process`, threading the generator's `metadata`
object and the list of error messages emitted so far (each `this.error(...)`
call appends one message, in order). -/
def processExtractGo : List TestRec → MetaMap → List String → MetaMap × List String
  | [], m, errs => (m, errs)
  | t :: rest, m, errs =>
    if truthyGet m t.name then
      processExtractGo rest m (errs ++ ["Duplicate test name: " ++ t.name])
    else
      processExtractGo rest (m ++ [(t.name, extractFromTest t.properties)]) errs

/-- The extraction loop of `process` started from a metadata state
(`metadata: {}` is initialized once on the singleton object, so a later
invocation of `process` starts from the state the previous one left). -/
def processExtract (tests : List TestRec) (m : MetaMap) : MetaMap × List String :=
  processExtractGo tests m []

/-- The message-selection logic of `process`: `none` when no message element
is inserted, otherwise the message text and its CSS class. -/
def processMessage (cached : Option MetaMap) (m : MetaMap) : Option (String × String) :=
  match cached with
  | none => some ("Cached metdata not present. ", "warning")
  | some c =>
    if validateCache m c then none
    else some ("Cached metadata out of sync. ", "error")

/-- `process` from the source, as a function of the generator's metadata
state, the test list, and the (possibly absent) `window.cached_metadata`
binding: returns the new metadata state, the duplicate error messages in
emission order, and the optional status message (text, class). -/
def process (m₀ : MetaMap) (tests : List TestRec) (cached : Option MetaMap) :
    MetaMap × List String × Option (String × String) :=
  let (m, errs) := processExtract tests m₀
  (m, errs, processMessage cached m)

/-! ## Renderer: `jsonifyArray`, `jsonifyObject`, `generateSource`

The source's `jsonifyObject` is generic; here it is specialized to the
two-level shape it is actually applied to: the metadata mapping, whose
values are sub-mapping objects, whose values in turn are arrays of strings
or scalar strings (`JSON.stringify` handles any scalar; strings are the
modelled scalars). -/

/-- Lower-case hex digit for `n < 16`. -/
def hexDigit (n : Nat) : Char :=
  if n < 10 then Char.ofNat (48 + n) else Char.ofNat (87 + n)

/-- One character of `JSON.stringify`'s string escaping. -/
def jsonEscapeChar (c : Char) : List Char :=
  if c = '\x22' then ['\\', '\x22']
  else if c = '\\' then ['\\', '\\']
  else if c = '\n' then ['\\', 'n']
  else if c = '\r' then ['\\', 'r']
  else if c = '\t' then ['\\', 't']
  else if c = '\x08' then ['\\', 'b']
  else if c = '\x0c' then ['\\', 'f']
  else if c.toNat < 32 then
    ['\\', 'u', '0', '0', hexDigit (c.toNat / 16), hexDigit (c.toNat % 16)]
  else [c]

/-- `JSON.stringify` on a string: quote and escape. -/
def jsonString (s : String) : String :=
  String.mk ('\x22' :: (s.data.map jsonEscapeChar).flatten ++ ['\x22'])

/-- `jsonifyArray` from the source: a one-element array renders inline;
otherwise elements are separated by `',\n  ' + indent`. -/
def jsonifyArray (arrayValue : List String) (indent : String) : String :=
  match arrayValue with
  | [x] => "[" ++ jsonString x ++ "]"
  | _ => "[" ++ String.intercalate (",\n  " ++ indent) (arrayValue.map jsonString) ++ "]"

/-- The source's `'                '` (16 spaces) used to build array
indentation. -/
def spaces16 : String := "                "

/-- The indent passed to `jsonifyArray` for an array stored under key
`property`: `indent + '                '.substr(0, 5 + property.length)`. -/
def childArrayIndent (indent property : String) : String :=
  indent ++ spaces16.take (5 + property.length)

/-- Rendering of one metadata value inside a sub-mapping entry, following
`jsonifyObject`'s value dispatch: arrays go to `jsonifyArray` with the
widened indent, scalars go to `JSON.stringify`. -/
def jsonifyMetaVal (v : MetaVal) (indent property : String) : String :=
  match v with
  | .arr xs => jsonifyArray xs (childArrayIndent indent property)
  | .str s => jsonString s

/-- One `property` line of `jsonifyObject` applied to a sub-mapping:
`'\n  ' + indent + '"' + property + '": '` followed by the rendered value.
The key is emitted raw, without escaping. -/
def jsonifySubEntry (indent : String) (p : String × MetaVal) : String :=
  "\n  " ++ indent ++ "\x22" ++ p.1 ++ "\x22: " ++ jsonifyMetaVal p.2 indent p.1

/-- `jsonifyObject` applied to a sub-mapping object (values are arrays or
scalars). -/
def jsonifyTestMeta (tm : TestMeta) (indent : String) : String :=
  let body := String.intercalate "," (tm.map (jsonifySubEntry indent))
  "\x7b" ++ body ++ (if body.length > 0 then "\n" ++ indent else "") ++ "\x7d"

/-- One `property` line of `jsonifyObject` applied to the metadata mapping:
the value is itself an object, so it recurses with `indent + '  '`. -/
def jsonifyMapEntry (indent : String) (p : String × TestMeta) : String :=
  "\n  " ++ indent ++ "\x22" ++ p.1 ++ "\x22: " ++ jsonifyTestMeta p.2 (indent ++ "  ")

/-- `jsonifyObject` applied to the metadata mapping. -/
def jsonifyMetadata (m : MetaMap) (indent : String) : String :=
  let body := String.intercalate "," (m.map (jsonifyMapEntry indent))
  "\x7b" ++ body ++ (if body.length > 0 then "\n" ++ indent else "") ++ "\x7d"

/-- `generateSource` from the source: the fixed script-tag template around
the rendered metadata literal. -/
def generateSource (m : MetaMap) : String :=
  "<script id=\x22test_metadata\x22>\n" ++
  "var cached_metadata = " ++ jsonifyMetadata m "" ++ "\n" ++
  "</script>\n"

/-! ## Parser

Modelled from the spec: "parsing the structured literal embedded in the
produced source text" (the round-trip property of §8).  No parser exists in
the source; this is a recursive-descent reader of the literal fragment the
renderer emits — objects with raw keys, arrays of JSON strings, JSON string
scalars, with JSON string escapes — used only to state and settle the
round-trip claim.  Each parser returns the parsed value together with the
unconsumed suffix and a proof that it consumed at least one character. -/

/-- Whitespace characters skipped between tokens. -/
def isWsChar (c : Char) : Bool :=
  c = ' ' || c = '\n' || c = '\t' || c = '\r'

/-- Skip leading whitespace. -/
def skipWs : List Char → List Char
  | [] => []
  | c :: rest => if isWsChar c then skipWs rest else c :: rest

/-- Skipping whitespace never lengthens the input. -/
def skipWs_le : ∀ l : List Char, (skipWs l).length ≤ l.length := by
  intro l
  induction l with
  | nil => simp [skipWs]
  | cons c rest ih => simp only [skipWs]; split <;> simp <;> omega

/-- A parse result on input `l`: value, unconsumed rest, and the strict
consumption fact used for termination of the entry loops. -/
structure ParseOut (α : Type) (l : List Char) where
  val : α
  rest : List Char
  lt : rest.length < l.length

/-- Value of a hex digit. -/
def hexVal (c : Char) : Option Nat :=
  if '0' ≤ c ∧ c ≤ '9' then some (c.toNat - 48)
  else if 'a' ≤ c ∧ c ≤ 'f' then some (c.toNat - 87)
  else if 'A' ≤ c ∧ c ≤ 'F' then some (c.toNat - 55)
  else none

/-- Single-character JSON escapes. -/
def unescapeChar (e : Char) : Option Char :=
  if e = '\x22' then some '\x22'
  else if e = '\\' then some '\\'
  else if e = '/' then some '/'
  else if e = 'n' then some '\n'
  else if e = 'r' then some '\r'
  else if e = 't' then some '\t'
  else if e = 'b' then some '\x08'
  else if e = 'f' then some '\x0c'
  else none

/-- Read the body of a string literal up to and including the closing
quote, decoding escapes; any other character stands for itself. -/
def parseStringBody : (l : List Char) → Option (ParseOut (List Char) l)
  | [] => none
  | c :: rest =>
    if c = '\x22' then some ⟨[], rest, by simp⟩
    else if c = '\\' then
      match rest with
      | [] => none
      | e :: rest2 =>
        if e = 'u' then
          match rest2 with
          | h1 :: h2 :: h3 :: h4 :: rest3 =>
            match hexVal h1, hexVal h2, hexVal h3, hexVal h4 with
            | some a, some b, some g, some d =>
              (parseStringBody rest3).map (fun p =>
                ⟨Char.ofNat (4096 * a + 256 * b + 16 * g + d) :: p.val, p.rest,
                 by have := p.lt; simp at this ⊢; omega⟩)
            | _, _, _, _ => none
          | _ => none
        else
          match unescapeChar e with
          | some u =>
            (parseStringBody rest2).map (fun p =>
              ⟨u :: p.val, p.rest, by have := p.lt; simp at this ⊢; omega⟩)
          | none => none
    else
      (parseStringBody rest).map (fun p =>
        ⟨c :: p.val, p.rest, by have := p.lt; simp at this ⊢; omega⟩)

/-- Parse a string literal; the input must already be whitespace-stripped,
and the returned rest is whitespace-stripped. -/
def parseJString (l : List Char) : Option (ParseOut String l) :=
  match l with
  | '\x22' :: rest =>
    (parseStringBody rest).map (fun p =>
      ⟨String.mk p.val, skipWs p.rest,
       by
         have h1 := p.lt
         have h2 := skipWs_le p.rest
         simp only [List.length_cons]
         omega⟩)
  | _ => none

mutual

/-- Parse the elements of an array of string literals, positioned just
after the opening bracket (input whitespace-stripped); consumes through the
closing bracket and strips trailing whitespace. -/
def parseElems (l : List Char) : Option (ParseOut (List String) l) :=
  match l with
  | ']' :: rest =>
    some ⟨[], skipWs rest, by
      have h2 := skipWs_le rest
      simp only [List.length_cons]
      omega⟩
  | ls => (parseJString ls).bind (fun p => parseElemsStep ls p.val p.rest p.lt)
termination_by (l.length, 1)
decreasing_by
  simp_wf
  exact Prod.Lex.right _ (by omega)

/-- Continuation of `parseElems` after one element with value `v`,
positioned at `r`. -/
def parseElemsStep (l : List Char) (v : String) (r : List Char)
    (hr : r.length < l.length) : Option (ParseOut (List String) l) :=
  match r, hr with
  | ',' :: rest2, hr =>
    (parseElems (skipWs rest2)).map (fun q =>
      ⟨v :: q.val, q.rest, by
        have h3 := q.lt
        have h4 := skipWs_le rest2
        simp only [List.length_cons] at hr
        omega⟩)
  | ']' :: rest2, hr =>
    some ⟨[v], skipWs rest2, by
      have h3 := skipWs_le rest2
      simp only [List.length_cons] at hr
      omega⟩
  | _, _ => none
termination_by (l.length, 0)
decreasing_by
  simp_wf
  apply Prod.Lex.left
  have h4 := skipWs_le rest2
  simp only [List.length_cons] at hr
  omega

end

/-- Parse a metadata value: an array of strings or a string scalar (input
whitespace-stripped, rest stripped). -/
def parseMetaVal (l : List Char) : Option (ParseOut MetaVal l) :=
  match l with
  | '[' :: rest =>
    (parseElems (skipWs rest)).map (fun q =>
      ⟨.arr q.val, q.rest,
       by
         have h2 := skipWs_le rest
         have h3 := q.lt
         simp only [List.length_cons]
         omega⟩)
  | '\x22' :: rest =>
    (parseStringBody rest).map (fun q =>
      ⟨.str (String.mk q.val), skipWs q.rest,
       by
         have h2 := skipWs_le q.rest
         have h3 := q.lt
         simp only [List.length_cons]
         omega⟩)
  | _ => none

mutual

/-- Parse the entries of a sub-mapping object, positioned just after the
opening brace (input whitespace-stripped); consumes through the closing
brace and strips trailing whitespace. -/
def parseTMEntries (l : List Char) : Option (ParseOut TestMeta l) :=
  match l with
  | '\x7d' :: rest =>
    some ⟨[], skipWs rest, by
      have h2 := skipWs_le rest
      simp only [List.length_cons]
      omega⟩
  | ls => (parseJString ls).bind (fun k => parseTMEntriesKey ls k.val k.rest k.lt)
termination_by (l.length, 2)
decreasing_by
  simp_wf
  exact Prod.Lex.right _ (by omega)

/-- Continuation of `parseTMEntries` after an entry key `key`, expecting a
colon then the value. -/
def parseTMEntriesKey (l : List Char) (key : String) (r : List Char)
    (hr : r.length < l.length) : Option (ParseOut TestMeta l) :=
  match r, hr with
  | ':' :: rest2, hr =>
    (parseMetaVal (skipWs rest2)).bind (fun v =>
      parseTMEntriesVal l key v.val v.rest (by
        have h3 := v.lt
        have h4 := skipWs_le rest2
        simp only [List.length_cons] at hr
        omega))
  | _, _ => none
termination_by (l.length, 1)
decreasing_by
  simp_wf
  exact Prod.Lex.right _ (by omega)

/-- Continuation of `parseTMEntries` after a full entry `(key, v)`,
expecting a comma (more entries) or the closing brace. -/
def parseTMEntriesVal (l : List Char) (key : String) (v : MetaVal)
    (r : List Char) (hr : r.length < l.length) :
    Option (ParseOut TestMeta l) :=
  match r, hr with
  | ',' :: rest3, hr =>
    (parseTMEntries (skipWs rest3)).map (fun q =>
      ⟨(key, v) :: q.val, q.rest, by
        have h3 := q.lt
        have h4 := skipWs_le rest3
        simp only [List.length_cons] at hr
        omega⟩)
  | '\x7d' :: rest3, hr =>
    some ⟨[(key, v)], skipWs rest3, by
      have h3 := skipWs_le rest3
      simp only [List.length_cons] at hr
      omega⟩
  | _, _ => none
termination_by (l.length, 0)
decreasing_by
  simp_wf
  apply Prod.Lex.left
  have h4 := skipWs_le rest3
  simp only [List.length_cons] at hr
  omega

end

/-- Parse a sub-mapping object including its opening brace (input
whitespace-stripped, rest stripped). -/
def parseTestMetaObj (l : List Char) : Option (ParseOut TestMeta l) :=
  match l with
  | '\x7b' :: rest =>
    (parseTMEntries (skipWs rest)).map (fun q =>
      ⟨q.val, q.rest,
       by
         have h2 := skipWs_le rest
         have h3 := q.lt
         simp only [List.length_cons]
         omega⟩)
  | _ => none

mutual

/-- Parse the entries of the metadata object (values are sub-mapping
objects), positioned just after the opening brace (input
whitespace-stripped). -/
def parseMDEntries (l : List Char) : Option (ParseOut MetaMap l) :=
  match l with
  | '\x7d' :: rest =>
    some ⟨[], skipWs rest, by
      have h2 := skipWs_le rest
      simp only [List.length_cons]
      omega⟩
  | ls => (parseJString ls).bind (fun k => parseMDEntriesKey ls k.val k.rest k.lt)
termination_by (l.length, 2)
decreasing_by
  simp_wf
  exact Prod.Lex.right _ (by omega)

/-- Continuation of `parseMDEntries` after an entry key. -/
def parseMDEntriesKey (l : List Char) (key : String) (r : List Char)
    (hr : r.length < l.length) : Option (ParseOut MetaMap l) :=
  match r, hr with
  | ':' :: rest2, hr =>
    (parseTestMetaObj (skipWs rest2)).bind (fun v =>
      parseMDEntriesVal l key v.val v.rest (by
        have h3 := v.lt
        have h4 := skipWs_le rest2
        simp only [List.length_cons] at hr
        omega))
  | _, _ => none
termination_by (l.length, 1)
decreasing_by
  simp_wf
  exact Prod.Lex.right _ (by omega)

/-- Continuation of `parseMDEntries` after a full entry. -/
def parseMDEntriesVal (l : List Char) (key : String) (v : TestMeta)
    (r : List Char) (hr : r.length < l.length) :
    Option (ParseOut MetaMap l) :=
  match r, hr with
  | ',' :: rest3, hr =>
    (parseMDEntries (skipWs rest3)).map (fun q =>
      ⟨(key, v) :: q.val, q.rest, by
        have h3 := q.lt
        have h4 := skipWs_le rest3
        simp only [List.length_cons] at hr
        omega⟩)
  | '\x7d' :: rest3, hr =>
    some ⟨[(key, v)], skipWs rest3, by
      have h3 := skipWs_le rest3
      simp only [List.length_cons] at hr
      omega⟩
  | _, _ => none
termination_by (l.length, 0)
decreasing_by
  simp_wf
  apply Prod.Lex.left
  have h4 := skipWs_le rest3
  simp only [List.length_cons] at hr
  omega

end

/-- Parse the metadata literal: an object whose values are sub-mapping
objects.  Returns the mapping and the unconsumed suffix (whitespace
after the literal is consumed). -/
def parseMetadata (l : List Char) : Option (MetaMap × List Char) :=
  match l with
  | '\x7b' :: rest => (parseMDEntries (skipWs rest)).map (fun q => (q.val, q.rest))
  | _ => none

/-! ## Spec-side definitions (stated from the spec's words, for comparison) -/

/-- The spec's per-test equivalence: the two sub-mappings are deeply equal
when restricted to the recognized keys (same presence and equal value for
each of `help`, `assert`, `author`). -/
def subMapMatches (tm cm : TestMeta) : Bool :=
  metadataProperties.all (fun meta => tm.lookup meta == cm.lookup meta)

/-- The spec's Validator contract: the sets of test names are identical and
each test's sub-mappings are deeply equal restricted to the recognized
keys. -/
def specCacheValid (m c : MetaMap) : Bool :=
  m.all (fun p => hasKey c p.1) && c.all (fun p => hasKey m p.1) &&
  m.all (fun p => match c.lookup p.1 with
    | some cm => subMapMatches p.2 cm
    | none => false)

/-- The sub-mapping validation step with the sequence-type check removed,
stated from the spec's words ("the type check never actually rejects
non-sequence cached values"), for comparison with `validateMetaKey`. -/
def validateMetaKeyNoCheck (testMetadata cachedTestMetadata : TestMeta)
    (meta : String) : Bool :=
  match cachedTestMetadata.lookup meta, testMetadata.lookup meta with
  | some cv, some tv =>
    if metaLen cv = metaLen tv then
      (List.range (metaLen cv)).all (fun i => metaElem cv i = metaElem tv i)
    else false
  | none, none => true
  | _, _ => false

/-- All values of a sub-mapping are arrays (the data-model invariant:
"values for a recognized key are always treated as an ordered sequence of
strings"). -/
def subMapAllArrays (tm : TestMeta) : Bool :=
  tm.all (fun p => match p.2 with | .arr _ => true | .str _ => false)

/-- All values of a metadata mapping are arrays. -/
def mapAllArrays (m : MetaMap) : Bool :=
  m.all (fun p => subMapAllArrays p.2)

/-- The keys of an association-list object are distinct (JS object keys are
unique). -/
def keysNodup (m : List (String × α)) : Prop :=
  (m.map Prod.fst).Nodup

/-- A test name that survives raw embedding as an unescaped object key:
contains neither a double quote nor a backslash. -/
def nameSafe (name : String) : Bool :=
  name.data.all (fun c => !(c = '\x22') && !(c = '\\'))

/-! ## Helper lemmas -/

theorem seqTypeCheck_false (v : MetaVal) : seqTypeCheckCondition v = false := by
  cases v <;> rfl

/-! ## Claim C6 -/

/-- Claim C6: the sequence-type check `! cachedTestMetadata[meta]
instanceof Array` in `validateCache` is a no-op: for every cached value the
condition evaluates to false (the negation produces a Boolean, which is
never an `Array` instance), so its `return false` branch is unreachable
and the per-key validation step coincides with the same step with the
check removed. -/
theorem C6_seq_type_check_noop :
    (∀ v : MetaVal, seqTypeCheckCondition v = false) ∧
    (∀ tm cm : TestMeta, ∀ meta : String,
      validateMetaKey tm cm meta = validateMetaKeyNoCheck tm cm meta) := by
  refine ⟨seqTypeCheck_false, fun tm cm meta => ?_⟩
  unfold validateMetaKey validateMetaKeyNoCheck
  cases cm.lookup meta with
  | none => rfl
  | some cv =>
    cases tm.lookup meta with
    | none => rfl
    | some tv => simp [seqTypeCheck_false]

/-! ## Claim C2 -/

/-- Claim C2: `extractFromTest` returns a new sub-mapping that has a key
`k` iff `k` is a recognized key that is an own property of the test's
`properties`; each present value is the property value unchanged, and the
keys appear in the fixed order `help`, `assert`, `author`.  (The embedding
is a pure total function, matching "no error conditions and no side
effects".) -/
theorem C2_extractFromTest_spec (properties : List (String × MetaVal)) :
    ((extractFromTest properties).map Prod.fst =
      metadataProperties.filter (fun meta => hasKey properties meta)) ∧
    (∀ k : String, (extractFromTest properties).lookup k =
      if k ∈ metadataProperties then properties.lookup k else none) := by
  constructor
  · cases h1 : properties.lookup "help" <;>
      cases h2 : properties.lookup "assert" <;>
      cases h3 : properties.lookup "author" <;>
      simp [extractFromTest, metadataProperties, hasKey, h1, h2, h3]
  · intro k
    by_cases hk1 : k = "help"
    · subst hk1
      cases h1 : properties.lookup "help" <;>
        cases h2 : properties.lookup "assert" <;>
        cases h3 : properties.lookup "author" <;>
        simp [extractFromTest, metadataProperties, h1, h2, h3, List.lookup]
    · by_cases hk2 : k = "assert"
      · subst hk2
        cases h1 : properties.lookup "help" <;>
          cases h2 : properties.lookup "assert" <;>
          cases h3 : properties.lookup "author" <;>
          simp [extractFromTest, metadataProperties, h1, h2, h3, List.lookup]
      · by_cases hk3 : k = "author"
        · subst hk3
          cases h1 : properties.lookup "help" <;>
            cases h2 : properties.lookup "assert" <;>
            cases h3 : properties.lookup "author" <;>
            simp [extractFromTest, metadataProperties, h1, h2, h3, List.lookup]
        · have e1 : (k == "help") = false := beq_eq_false_iff_ne.mpr hk1
          have e2 : (k == "assert") = false := beq_eq_false_iff_ne.mpr hk2
          have e3 : (k == "author") = false := beq_eq_false_iff_ne.mpr hk3
          cases h1 : properties.lookup "help" <;>
            cases h2 : properties.lookup "assert" <;>
            cases h3 : properties.lookup "author" <;>
            simp [extractFromTest, metadataProperties, h1, h2, h3, List.lookup,
              e1, e2, e3, hk1, hk2, hk3]

/-! ## Claim C3 -/

/-- Claim C3: after extraction, `process` reports exactly one of three
outcomes: with the page-global cached mapping absent it reports the
warning-class message `"Cached metdata not present. "`; with it present it
reports the error-class message `"Cached metadata out of sync. "` exactly
when `validateCache` fails, and no message when validation succeeds. -/
theorem C3_process_message (m₀ : MetaMap) (tests : List TestRec) (c : MetaMap) :
    ((process m₀ tests none).2.2 =
      some ("Cached metdata not present. ", "warning")) ∧
    ((process m₀ tests (some c)).2.2 =
      if validateCache (processExtract tests m₀).1 c then none
      else some ("Cached metadata out of sync. ", "error")) := by
  constructor
  · rfl
  · simp only [process, processMessage]

/-! ## Claim C10 -/

/-- Claim C10: a test whose name equals an own property name of
`Object.prototype` (here `"constructor"`) is reported as a duplicate on its
first occurrence and its metadata is not recorded: the duplicate check
reads `this.metadata[test.name]` truthily, finding the inherited prototype
member. -/
theorem C10_prototype_name_false_duplicate :
    (processExtract [⟨"constructor", [("help", MetaVal.arr ["h"])]⟩] []).2 =
      ["Duplicate test name: constructor"] ∧
    ((processExtract [⟨"constructor", [("help", MetaVal.arr ["h"])]⟩] []).1.lookup
      "constructor") = none := by
  constructor <;> rfl

/-! ## Claim C7: helper lemmas -/

theorem drainCache_final_check (m c : MetaMap) :
    validateCache m c = ((drainCache m c).2 && (drainCache m c).1.isEmpty) := by
  unfold validateCache
  rcases drainCache m c with ⟨rem, ok⟩
  simp [Bool.and_comm]

theorem drainCache_ok_final (m c : MetaMap) (h : (drainCache m c).2 = true) :
    (drainCache m c).1 = c.filter (fun p => !(hasKey m p.1)) := by
  induction m generalizing c with
  | nil =>
    simp only [drainCache]
    have : ∀ p : String × TestMeta, (!(hasKey ([] : MetaMap) p.1)) = true := by
      intro p; simp [hasKey]
    simp [List.filter_eq_self.mpr (fun p _ => this p)]
  | cons hd tl ih =>
    rcases hd with ⟨name, tm⟩
    rw [drainCache] at h ⊢
    cases hc : c.lookup name with
    | none => rw [hc] at h; simp at h
    | some ctm =>
      rw [hc] at h
      dsimp only at h ⊢
      by_cases hall : metadataProperties.all
          (fun meta => validateMetaKey tm ctm meta) = true
      · rw [if_pos hall] at h ⊢
        rw [ih _ h]
        rw [eraseKey, List.filter_filter]
        apply List.filter_congr
        intro p _
        by_cases hp : p.1 = name
        · simp [hp, hasKey, hc]
        · simp only [decide_not]
          have : (p.1 == name) = false := beq_eq_false_iff_ne.mpr hp
          simp [hasKey, List.lookup, hp, this, decide_eq_true_eq]
      · rw [if_neg hall] at h; simp at h

theorem validateCache_true_empty (m c : MetaMap) (h : validateCache m c = true) :
    (drainCache m c).1 = [] := by
  rw [drainCache_final_check] at h
  simp only [Bool.and_eq_true, List.isEmpty_iff] at h
  exact h.2

/-! ## Claim C7 -/

/-- Claim C7: `validateCache` destructively drains the cached mapping: when
the drain loop completes, the cached mapping retains exactly the entries
whose names are absent from the extracted mapping (each matched entry was
deleted as it was checked); the final leftover check is exactly an
emptiness check on the drained mapping, so a `true` result means the cached
mapping ended empty. -/
theorem C7_validateCache_drains (m c : MetaMap) :
    (validateCache m c = ((drainCache m c).2 && (drainCache m c).1.isEmpty)) ∧
    ((drainCache m c).2 = true →
      (drainCache m c).1 = c.filter (fun p => !(hasKey m p.1))) ∧
    (validateCache m c = true → (drainCache m c).1 = []) :=
  ⟨drainCache_final_check m c, drainCache_ok_final m c, validateCache_true_empty m c⟩

/-- Witness for C7 at concrete mappings: drain succeeds and leaves exactly
the unmatched entry. -/
theorem C7_validateCache_drains_witness :
    (drainCache [("t", [("help", MetaVal.arr ["h"])])]
        [("t", [("help", MetaVal.arr ["h"])]), ("u", [])]).1 = [("u", [])] := by
  have h := (C7_validateCache_drains
    [("t", [("help", MetaVal.arr ["h"])])]
    [("t", [("help", MetaVal.arr ["h"])]), ("u", [])]).2.1 (by decide)
  rw [h]
  decide

/-! ## Helper lemmas about the extraction loop -/

theorem string_append_cancel_left {s a b : String} (h : s ++ a = s ++ b) :
    a = b := by
  have h2 : (s ++ a).data = (s ++ b).data := by rw [h]
  simp only [String.data_append] at h2
  exact String.ext (List.append_cancel_left h2)

theorem lookup_append (l₁ l₂ : List (String × α)) (k : String) :
    (l₁ ++ l₂).lookup k =
      match l₁.lookup k with
      | some v => some v
      | none => l₂.lookup k := by
  induction l₁ with
  | nil => simp
  | cons hd tl ih =>
    rcases hd with ⟨k', v⟩
    by_cases hk : k = k'
    · simp [List.lookup, hk]
    · have : (k == k') = false := beq_eq_false_iff_ne.mpr hk
      simp [List.lookup, this, ih]

theorem hasKey_append_left {l₁ : List (String × α)} (l₂ : List (String × α))
    {k : String} (h : hasKey l₁ k = true) : hasKey (l₁ ++ l₂) k = true := by
  unfold hasKey at h ⊢
  rw [lookup_append]
  cases hl : l₁.lookup k with
  | none => rw [hl] at h; simp at h
  | some v => simp

theorem lookup_append_of_hasKey {l₁ : List (String × α)} (l₂ : List (String × α))
    {k : String} (h : hasKey l₁ k = true) :
    (l₁ ++ l₂).lookup k = l₁.lookup k := by
  unfold hasKey at h
  rw [lookup_append]
  cases hl : l₁.lookup k with
  | none => rw [hl] at h; simp at h
  | some v => simp

theorem processExtractGo_errs (tests : List TestRec) (m : MetaMap)
    (errs : List String) :
    (processExtractGo tests m errs).2 = errs ++ (processExtractGo tests m []).2 := by
  induction tests generalizing m errs with
  | nil => simp [processExtractGo]
  | cons t rest ih =>
    by_cases ht : truthyGet m t.name = true
    · rw [processExtractGo, if_pos ht, processExtractGo, if_pos ht]
      rw [ih m (errs ++ ["Duplicate test name: " ++ t.name]),
        ih m ([] ++ ["Duplicate test name: " ++ t.name])]
      simp
    · rw [processExtractGo, if_neg ht, processExtractGo, if_neg ht]
      exact ih _ errs

theorem processExtractGo_lookup (tests : List TestRec) (m : MetaMap)
    (errs : List String) (n : String)
    (h : ∀ t ∈ tests, t.name ∉ objectPrototypeKeys) :
    (processExtractGo tests m errs).1.lookup n =
      match m.lookup n with
      | some v => some v
      | none => (tests.find? (fun t => t.name == n)).map
          (fun t => extractFromTest t.properties) := by
  induction tests generalizing m errs with
  | nil => cases hm : m.lookup n <;> simp [processExtractGo, hm]
  | cons t rest ih =>
    have hproto : t.name ∉ objectPrototypeKeys := h t (List.mem_cons_self t rest)
    have hrest : ∀ t' ∈ rest, t'.name ∉ objectPrototypeKeys :=
      fun t' ht' => h t' (List.mem_cons_of_mem t ht')
    by_cases ht : truthyGet m t.name = true
    · have hkey : hasKey m t.name = true := by
        unfold truthyGet at ht
        simpa [hproto] using ht
      rw [processExtractGo, if_pos ht, ih m _ hrest]
      by_cases hn : t.name = n
      · subst hn
        unfold hasKey at hkey
        cases hm : m.lookup t.name with
        | none => rw [hm] at hkey; simp at hkey
        | some v => simp
      · have : (t.name == n) = false := beq_eq_false_iff_ne.mpr hn
        rw [List.find?_cons, this]
    · rw [processExtractGo, if_neg ht, ih _ _ hrest]
      have hkey : hasKey m t.name = false := by
        unfold truthyGet at ht
        simp only [Bool.or_eq_true, not_or] at ht
        exact Bool.not_eq_true _ ▸ (by simpa using ht.1)
      by_cases hn : t.name = n
      · subst hn
        unfold hasKey at hkey
        cases hm : m.lookup t.name with
        | some v => rw [hm] at hkey; simp at hkey
        | none =>
          rw [lookup_append, hm]
          simp [List.lookup, List.find?_cons]
      · have hb : (t.name == n) = false := beq_eq_false_iff_ne.mpr hn
        rw [lookup_append]
        have : List.lookup n [(t.name, extractFromTest t.properties)] = none := by
          simp [List.lookup, beq_eq_false_iff_ne.mpr (Ne.symm hn)]
        cases hm : m.lookup n <;>
          simp [hm, this, List.find?_cons, hb]

theorem processExtractGo_count (tests : List TestRec) (m : MetaMap)
    (errs : List String) (n : String)
    (h : ∀ t ∈ tests, t.name ∉ objectPrototypeKeys) :
    (processExtractGo tests m errs).2.count ("Duplicate test name: " ++ n) =
      errs.count ("Duplicate test name: " ++ n) +
      (if hasKey m n then tests.countP (fun t => t.name == n)
       else tests.countP (fun t => t.name == n) - 1) := by
  induction tests generalizing m errs with
  | nil => simp [processExtractGo]
  | cons t rest ih =>
    have hproto : t.name ∉ objectPrototypeKeys := h t (List.mem_cons_self t rest)
    have hrest : ∀ t' ∈ rest, t'.name ∉ objectPrototypeKeys :=
      fun t' ht' => h t' (List.mem_cons_of_mem t ht')
    have hmsg : ∀ s : String,
        (("Duplicate test name: " ++ s) = ("Duplicate test name: " ++ n)) ↔ s = n := by
      intro s
      exact ⟨fun hh => string_append_cancel_left hh, fun hh => by rw [hh]⟩
    by_cases ht : truthyGet m t.name = true
    · have hkey : hasKey m t.name = true := by
        unfold truthyGet at ht
        simpa [hproto] using ht
      rw [processExtractGo, if_pos ht, ih m _ hrest]
      by_cases hn : t.name = n
      · subst hn
        have hcnt : List.count ("Duplicate test name: " ++ t.name)
            (errs ++ ["Duplicate test name: " ++ t.name]) =
            List.count ("Duplicate test name: " ++ t.name) errs + 1 := by
          rw [List.count_append]
          simp
        rw [hcnt, List.countP_cons]
        simp [hkey]
        omega
      · have hb : (t.name == n) = false := beq_eq_false_iff_ne.mpr hn
        have hcnt : List.count ("Duplicate test name: " ++ n)
            (errs ++ ["Duplicate test name: " ++ t.name]) =
            List.count ("Duplicate test name: " ++ n) errs := by
          rw [List.count_append]
          have : ("Duplicate test name: " ++ t.name) ≠
              ("Duplicate test name: " ++ n) := fun hh => hn ((hmsg t.name).mp hh)
          simp [List.count_singleton, this]
        rw [hcnt, List.countP_cons, hb]
        simp
    · have hkey : hasKey m t.name = false := by
        unfold truthyGet at ht
        simp only [Bool.or_eq_true, not_or] at ht
        exact Bool.not_eq_true _ ▸ (by simpa using ht.1)
      rw [processExtractGo, if_neg ht, ih _ errs hrest]
      by_cases hn : t.name = n
      · subst hn
        have hkm : hasKey (m ++ [(t.name, extractFromTest t.properties)]) t.name
            = true := by
          unfold hasKey
          rw [lookup_append]
          unfold hasKey at hkey
          cases hm : m.lookup t.name with
          | some v => rw [hm] at hkey; simp at hkey
          | none => simp [List.lookup]
        rw [List.countP_cons]
        simp [hkm, hkey]
      · have hb : (t.name == n) = false := beq_eq_false_iff_ne.mpr hn
        have hkm : hasKey (m ++ [(t.name, extractFromTest t.properties)]) n
            = hasKey m n := by
          unfold hasKey
          rw [lookup_append]
          cases hm : m.lookup n with
          | some v => simp
          | none =>
            simp [List.lookup, beq_eq_false_iff_ne.mpr (Ne.symm hn)]
        rw [hkm, List.countP_cons, hb]
        simp

/-! ## Claim C4 -/

/-- Counterexample to C4 as stated: the input `[{name: "toString"},
{name: "toString"}]` has a test name appearing twice, yet the extracted
mapping does not retain the first occurrence's metadata (the name is never
recorded, because `this.metadata["toString"]` is truthy via the prototype
chain), and two messages are produced for the single duplicate
occurrence. -/
theorem C4_counterexample :
    (processExtract [⟨"toString", []⟩, ⟨"toString", []⟩] []).1.lookup "toString"
      = none ∧
    (processExtract [⟨"toString", []⟩, ⟨"toString", []⟩] []).2 =
      ["Duplicate test name: toString", "Duplicate test name: toString"] := by
  constructor <;> rfl

/-- Claim C4 (amended: restricted to inputs whose test names do not collide
with `Object.prototype` member names): `process` reports one individual
`"Duplicate test name: <name>"` error message per occurrence of a name
beyond its first, in encounter order as extraction proceeds, and the
extracted mapping retains exactly the metadata of the first occurrence of
each name. -/
theorem C4_duplicates_amended (tests : List TestRec) (n : String)
    (h : ∀ t ∈ tests, t.name ∉ objectPrototypeKeys) :
    ((processExtract tests []).2.count ("Duplicate test name: " ++ n) =
      tests.countP (fun t => t.name == n) - 1) ∧
    ((processExtract tests []).1.lookup n =
      (tests.find? (fun t => t.name == n)).map
        (fun t => extractFromTest t.properties)) := by
  constructor
  · rw [processExtract, processExtractGo_count tests [] [] n h]
    simp [hasKey]
  · rw [processExtract, processExtractGo_lookup tests [] [] n h]
    simp [List.lookup]

/-- Witness for C4's amended theorem on a concrete input with one
duplicated name. -/
theorem C4_duplicates_amended_witness :
    ((processExtract [⟨"a", [("help", MetaVal.arr ["h1"])]⟩,
        ⟨"a", [("help", MetaVal.arr ["h2"])]⟩] []).2.count
        ("Duplicate test name: " ++ "a") = 1) ∧
    ((processExtract [⟨"a", [("help", MetaVal.arr ["h1"])]⟩,
        ⟨"a", [("help", MetaVal.arr ["h2"])]⟩] []).1.lookup "a" =
      some [("help", MetaVal.arr ["h1"])]) := by
  have h := C4_duplicates_amended
    [⟨"a", [("help", MetaVal.arr ["h1"])]⟩, ⟨"a", [("help", MetaVal.arr ["h2"])]⟩]
    "a" (by decide)
  refine ⟨by rw [h.1]; decide, by rw [h.2]; decide⟩

/-! ## Claim C9 -/

/-- Counterexample to C9 as stated: running `process` a second time on the
same single-test input is affected by the first invocation — the generator's
`metadata` object is initialized once and never cleared, so the second
invocation starts from the first invocation's mapping and reports a
duplicate, while a fresh first invocation reports none. -/
theorem C9_counterexample :
    (processExtract [⟨"a", []⟩]
      (processExtract [⟨"a", []⟩] []).1).2 = ["Duplicate test name: a"] ∧
    (processExtract [⟨"a", []⟩] []).2 = [] := by
  constructor <;> rfl

theorem processExtractGo_lookup_preserved (tests : List TestRec) (st : MetaMap)
    (errs : List String) (n : String) (hn : hasKey st n = true) :
    (processExtractGo tests st errs).1.lookup n = st.lookup n := by
  induction tests generalizing st errs with
  | nil => simp [processExtractGo]
  | cons t rest ih =>
    by_cases ht : truthyGet st t.name = true
    · rw [processExtractGo, if_pos ht]
      exact ih st _ hn
    · rw [processExtractGo, if_neg ht]
      rw [ih _ _ (hasKey_append_left _ hn)]
      exact lookup_append_of_hasKey _ hn

theorem processExtractGo_dup_mem (tests : List TestRec) :
    ∀ (st : MetaMap) (errs : List String) (t : TestRec), t ∈ tests →
      hasKey st t.name = true →
      ("Duplicate test name: " ++ t.name) ∈ (processExtractGo tests st errs).2 := by
  induction tests with
  | nil => intro st errs t ht _; simp at ht
  | cons t' rest ih =>
    intro st errs t ht hkey
    rcases List.mem_cons.mp ht with rfl | hmem
    · have htruthy : truthyGet st t.name = true := by
        unfold truthyGet
        rw [hkey]
        simp
      rw [processExtractGo, if_pos htruthy,
        processExtractGo_errs rest st (errs ++ ["Duplicate test name: " ++ t.name])]
      simp
    · by_cases ht' : truthyGet st t'.name = true
      · rw [processExtractGo, if_pos ht']
        exact ih st _ t hmem hkey
      · rw [processExtractGo, if_neg ht']
        exact ih _ _ t hmem (hasKey_append_left _ hkey)

/-- Claim C9 (amended): the extracted metadata mapping persists in the
generator across invocations of `process`; a later invocation starts from
the mapping the earlier ones left, so any test whose name is already
recorded is reported as a duplicate and the earlier invocation's metadata
for that name is retained unchanged. -/
theorem C9_metadata_persists_amended (st : MetaMap) (tests : List TestRec) :
    (∀ n : String, hasKey st n = true →
      (processExtract tests st).1.lookup n = st.lookup n) ∧
    (∀ t ∈ tests, hasKey st t.name = true →
      ("Duplicate test name: " ++ t.name) ∈ (processExtract tests st).2) := by
  unfold processExtract
  exact ⟨fun n hn => processExtractGo_lookup_preserved tests st [] n hn,
    fun t ht hkey => processExtractGo_dup_mem tests st [] t ht hkey⟩

/-- Witness for C9's amended theorem: a name recorded by one invocation is
reported as a duplicate by the next. -/
theorem C9_metadata_persists_amended_witness :
    ("Duplicate test name: " ++ "a") ∈
      (processExtract [⟨"a", []⟩] [("a", [])]).2 := by
  exact (C9_metadata_persists_amended [("a", [])] [⟨"a", []⟩]).2
    ⟨"a", []⟩ (by decide) (by decide)

/-! ## Claim C1: helper lemmas -/

theorem lookup_mem {l : List (String × α)} {k : String} {v : α}
    (h : l.lookup k = some v) : (k, v) ∈ l := by
  induction l with
  | nil => simp [List.lookup] at h
  | cons hd tl ih =>
    rcases hd with ⟨k', v'⟩
    by_cases hk : k = k'
    · subst hk
      simp [List.lookup] at h
      simp [h]
    · have hb : (k == k') = false := beq_eq_false_iff_ne.mpr hk
      simp [List.lookup, hb] at h
      exact List.mem_cons_of_mem _ (ih h)

theorem lookup_eraseKey_ne {l : List (String × α)} {k name : String}
    (h : k ≠ name) : (eraseKey l name).lookup k = l.lookup k := by
  unfold eraseKey
  induction l with
  | nil => simp
  | cons hd tl ih =>
    rcases hd with ⟨k', v'⟩
    rw [List.filter_cons]
    by_cases hk' : k' = name
    · rw [if_neg (by simp [hk'])]
      have hb : (k == k') = false := beq_eq_false_iff_ne.mpr (hk' ▸ h)
      rw [List.lookup_cons]
      simp only [hb]
      exact ih
    · rw [if_pos (by simp [hk'])]
      rw [List.lookup_cons, List.lookup_cons]
      cases hkk : (k == k') with
      | true => rfl
      | false => exact ih

theorem eraseKey_keysNodup {l : List (String × α)} {name : String}
    (h : keysNodup l) : keysNodup (eraseKey l name) := by
  unfold keysNodup at h ⊢
  exact ((List.filter_sublist l).map Prod.fst).nodup h

theorem arr_eq_of_elemwise {xs ys : List String}
    (hlen : xs.length = ys.length)
    (h : (List.range xs.length).all (fun i => xs.getD i "" = ys.getD i "")) :
    xs = ys := by
  rw [List.all_eq_true] at h
  apply List.ext_getElem hlen
  intro i h1 h2
  have := h i (by simpa using h1)
  simp only [decide_eq_true_eq] at this
  rw [List.getD_eq_getElem xs "" h1, List.getD_eq_getElem ys "" h2] at this
  exact this

theorem validateMetaKey_lookup_eq {tm cm : TestMeta} {meta : String}
    (htm : subMapAllArrays tm = true) (hcm : subMapAllArrays cm = true)
    (h : validateMetaKey tm cm meta = true) :
    tm.lookup meta = cm.lookup meta := by
  unfold validateMetaKey at h
  cases hc : cm.lookup meta with
  | none =>
    cases ht : tm.lookup meta with
    | none => rfl
    | some tv => rw [hc, ht] at h; simp at h
  | some cv =>
    cases ht : tm.lookup meta with
    | none => rw [hc, ht] at h; simp at h
    | some tv =>
      rw [hc, ht] at h
      dsimp only at h
      rw [seqTypeCheck_false] at h
      simp only [Bool.false_eq_true, if_false] at h
      have hcarr : ∃ xs, cv = MetaVal.arr xs := by
        rw [subMapAllArrays, List.all_eq_true] at hcm
        have := hcm (meta, cv) (lookup_mem hc)
        cases cv with
        | arr xs => exact ⟨xs, rfl⟩
        | str s => simp at this
      have htarr : ∃ ys, tv = MetaVal.arr ys := by
        rw [subMapAllArrays, List.all_eq_true] at htm
        have := htm (meta, tv) (lookup_mem ht)
        cases tv with
        | arr ys => exact ⟨ys, rfl⟩
        | str s => simp at this
      rcases hcarr with ⟨xs, rfl⟩
      rcases htarr with ⟨ys, rfl⟩
      by_cases hlen : metaLen (MetaVal.arr xs) = metaLen (MetaVal.arr ys)
      · rw [if_pos hlen] at h
        simp only [metaLen] at hlen
        have hx : ys = xs := by
          apply arr_eq_of_elemwise hlen.symm
          rw [List.all_eq_true] at h ⊢
          intro i hi
          have := h i (by rw [← hlen] at hi; exact hi)
          simp only [metaElem, decide_eq_true_eq] at this ⊢
          simpa [List.getD] using this.symm
        rw [hx]
      · rw [if_neg hlen] at h
        simp at h

theorem validateMetaKey_of_lookup_eq {tm cm : TestMeta} {meta : String}
    (h : tm.lookup meta = cm.lookup meta) :
    validateMetaKey tm cm meta = true := by
  unfold validateMetaKey
  cases hc : cm.lookup meta with
  | none => rw [hc] at h; rw [h]
  | some cv =>
    rw [hc] at h
    rw [h]
    dsimp only
    rw [seqTypeCheck_false]
    simp

theorem drainCache_ok_entries {m c : MetaMap} (hm : keysNodup m)
    (h : (drainCache m c).2 = true) :
    ∀ p ∈ m, ∃ ctm, c.lookup p.1 = some ctm ∧
      metadataProperties.all (fun meta => validateMetaKey p.2 ctm meta) = true := by
  induction m generalizing c with
  | nil => intro p hp; simp at hp
  | cons hd tl ih =>
    rcases hd with ⟨name, tm⟩
    rw [drainCache] at h
    cases hc : c.lookup name with
    | none => rw [hc] at h; simp at h
    | some ctm =>
      rw [hc] at h
      dsimp only at h
      by_cases hall : metadataProperties.all
          (fun meta => validateMetaKey tm ctm meta) = true
      · rw [if_pos hall] at h
        intro p hp
        rcases List.mem_cons.mp hp with heq | hmem
        · rw [heq]
          exact ⟨ctm, hc, hall⟩
        · have hnodup_tl : keysNodup tl := by
            unfold keysNodup at hm ⊢
            simp only [List.map_cons, List.nodup_cons] at hm
            exact hm.2
          rcases ih hnodup_tl h p hmem with ⟨ctm', hc', hall'⟩
          refine ⟨ctm', ?_, hall'⟩
          rw [← hc']
          symm
          apply lookup_eraseKey_ne
          intro hcontra
          unfold keysNodup at hm
          simp only [List.map_cons, List.nodup_cons] at hm
          exact hm.1 (hcontra ▸ (List.mem_map_of_mem Prod.fst hmem))
      · rw [if_neg hall] at h
        simp at h

theorem specCacheValid_step {name : String} {tm : TestMeta} {tl c : MetaMap}
    (hmnodup : keysNodup ((name, tm) :: tl))
    (hs : specCacheValid ((name, tm) :: tl) c = true) :
    specCacheValid tl (eraseKey c name) = true := by
  unfold specCacheValid at hs ⊢
  simp only [Bool.and_eq_true, List.all_eq_true] at hs ⊢
  obtain ⟨⟨hs1, hs2⟩, hs3⟩ := hs
  have hname_not_tl : name ∉ tl.map Prod.fst := by
    unfold keysNodup at hmnodup
    simp only [List.map_cons, List.nodup_cons] at hmnodup
    exact hmnodup.1
  refine ⟨⟨?_, ?_⟩, ?_⟩
  · intro p hp
    have hne : p.1 ≠ name := fun hcontra =>
      hname_not_tl (hcontra ▸ (List.mem_map_of_mem Prod.fst hp))
    have := hs1 p (List.mem_cons_of_mem _ hp)
    unfold hasKey at this ⊢
    rw [lookup_eraseKey_ne hne]
    exact this
  · intro q hq
    rw [eraseKey, List.mem_filter] at hq
    obtain ⟨hqc, hqname⟩ := hq
    have hne : q.1 ≠ name := by simpa using hqname
    have := hs2 q hqc
    unfold hasKey at this ⊢
    rw [List.lookup_cons] at this
    have hb : (q.1 == name) = false := beq_eq_false_iff_ne.mpr hne
    rw [hb] at this
    exact this
  · intro p hp
    have hne : p.1 ≠ name := fun hcontra =>
      hname_not_tl (hcontra ▸ (List.mem_map_of_mem Prod.fst hp))
    have := hs3 p (List.mem_cons_of_mem _ hp)
    rw [lookup_eraseKey_ne hne]
    exact this

/-! ## Claim C1 -/

/-- Claim C1: for mappings with unique test names whose metadata values are
sequences (the data-model invariant), `validateCache` returns `true` iff
the extracted and cached mappings are deeply equal restricted to the
recognized keys `help`, `assert`, `author` and have identical test-name
sets — every extracted name is present in the cache, each recognized key is
present on both sides with equal sequences (equal length, equal elements at
every index) or on neither, and no cached name is left unmatched. -/
theorem C1_validateCache_iff_spec (m c : MetaMap)
    (hm : keysNodup m) (hc : keysNodup c)
    (hma : mapAllArrays m = true) (hca : mapAllArrays c = true) :
    validateCache m c = true ↔ specCacheValid m c = true := by
  constructor
  · intro h
    have hok : (drainCache m c).2 = true := by
      rw [drainCache_final_check] at h
      simp only [Bool.and_eq_true] at h
      exact h.1
    have hrem : (drainCache m c).1 = [] := validateCache_true_empty m c h
    have hfilter : c.filter (fun p => !(hasKey m p.1)) = [] := by
      rw [← drainCache_ok_final m c hok]
      exact hrem
    have entries := drainCache_ok_entries hm hok
    unfold specCacheValid
    simp only [Bool.and_eq_true, List.all_eq_true]
    refine ⟨⟨?_, ?_⟩, ?_⟩
    · intro p hp
      rcases entries p hp with ⟨ctm, hctm, _⟩
      unfold hasKey
      rw [hctm]
      rfl
    · intro q hq
      by_contra hcontra
      have hmem : q ∈ c.filter (fun p => !(hasKey m p.1)) := by
        rw [List.mem_filter]
        exact ⟨hq, by simp [Bool.not_eq_true _ ▸ hcontra]⟩
      rw [hfilter] at hmem
      simp at hmem
    · intro p hp
      rcases entries p hp with ⟨ctm, hctm, hall⟩
      rw [hctm]
      unfold subMapMatches
      rw [List.all_eq_true] at hall ⊢
      intro meta hmeta
      have htm_arr : subMapAllArrays p.2 = true := by
        rw [mapAllArrays, List.all_eq_true] at hma
        exact hma p hp
      have hcm_arr : subMapAllArrays ctm = true := by
        rw [mapAllArrays, List.all_eq_true] at hca
        exact hca (p.1, ctm) (lookup_mem hctm)
      have := validateMetaKey_lookup_eq htm_arr hcm_arr (hall meta hmeta)
      simp [this]
  · intro hs
    clear hma hca
    induction m generalizing c with
    | nil =>
      unfold specCacheValid at hs
      simp only [Bool.and_eq_true, List.all_eq_true] at hs
      obtain ⟨⟨_, hs2⟩, _⟩ := hs
      cases c with
      | nil => rfl
      | cons q tl =>
        have := hs2 q (List.mem_cons_self q tl)
        simp [hasKey, List.lookup] at this
    | cons hd tl ih =>
      rcases hd with ⟨name, tm⟩
      have hspec := hs
      unfold specCacheValid at hspec
      simp only [Bool.and_eq_true, List.all_eq_true] at hspec
      obtain ⟨⟨hs1, hs2⟩, hs3⟩ := hspec
      have hkeyc : hasKey c name = true :=
        hs1 (name, tm) (List.mem_cons_self _ tl)
      obtain ⟨ctm, hctm⟩ : ∃ ctm, c.lookup name = some ctm := by
        unfold hasKey at hkeyc
        cases hl : c.lookup name with
        | none => rw [hl] at hkeyc; simp at hkeyc
        | some v => exact ⟨v, rfl⟩
      have hmatch : subMapMatches tm ctm = true := by
        have := hs3 (name, tm) (List.mem_cons_self _ tl)
        rw [hctm] at this
        exact this
      have hall : metadataProperties.all
          (fun meta => validateMetaKey tm ctm meta) = true := by
        rw [List.all_eq_true]
        intro meta hmeta
        unfold subMapMatches at hmatch
        rw [List.all_eq_true] at hmatch
        have := hmatch meta hmeta
        simp only [beq_iff_eq] at this
        exact validateMetaKey_of_lookup_eq this
      have hstep : validateCache ((name, tm) :: tl) c =
          validateCache tl (eraseKey c name) := by
        unfold validateCache
        rw [drainCache, hctm]
        dsimp only
        rw [if_pos hall]
      rw [hstep]
      have htlnodup : keysNodup tl := by
        unfold keysNodup at hm ⊢
        simp only [List.map_cons, List.nodup_cons] at hm
        exact hm.2
      exact ih (eraseKey c name) htlnodup (eraseKey_keysNodup hc) (specCacheValid_step hm hs)

/-- Witness for C1 at concrete equal mappings: validation succeeds. -/
theorem C1_validateCache_iff_spec_witness :
    validateCache [("t1", [("help", MetaVal.arr ["h1"])])]
      [("t1", [("help", MetaVal.arr ["h1"])])] = true := by
  exact (C1_validateCache_iff_spec
    [("t1", [("help", MetaVal.arr ["h1"])])]
    [("t1", [("help", MetaVal.arr ["h1"])])]
    (by unfold keysNodup; decide) (by unfold keysNodup; decide)
    (by decide) (by decide)).mpr (by decide)

/-! ## Claim C8: helper lemmas -/

theorem intercalate_go_acc (sep : String) (l : List String) :
    ∀ acc₁ acc₂ : String, String.intercalate.go (acc₁ ++ acc₂) sep l =
      acc₁ ++ String.intercalate.go acc₂ sep l := by
  induction l with
  | nil => intro a b; simp [String.intercalate.go]
  | cons x xs ih =>
    intro a b
    rw [String.intercalate.go, String.intercalate.go]
    rw [show a ++ b ++ sep ++ x = a ++ (b ++ sep ++ x) by simp [String.append_assoc]]
    exact ih a (b ++ sep ++ x)

theorem intercalate_cons₂ (sep a b : String) (l : List String) :
    String.intercalate sep (a :: b :: l) =
      a ++ sep ++ String.intercalate sep (b :: l) := by
  show String.intercalate.go a sep (b :: l) = _
  rw [String.intercalate.go]
  have := intercalate_go_acc sep l (a ++ sep) b
  rw [show a ++ sep ++ b = (a ++ sep) ++ b by simp [String.append_assoc]] at this ⊢
  rw [this]
  rfl

theorem hexDigit_ne_newline : ∀ m, m < 16 → hexDigit m ≠ '\n' := by decide

theorem jsonEscapeChar_no_newline (c : Char) : '\n' ∉ jsonEscapeChar c := by
  unfold jsonEscapeChar
  split_ifs with h1 h2 h3 h4 h5 h6 h7 h8
  · simp
  · simp
  · simp
  · simp
  · simp
  · simp
  · simp
  · intro hmem
    simp only [List.mem_cons, List.not_mem_nil, or_false] at hmem
    rcases hmem with h | h | h | h | h | h
    · exact absurd h (by decide)
    · exact absurd h (by decide)
    · exact absurd h (by decide)
    · exact absurd h (by decide)
    · exact (hexDigit_ne_newline (c.toNat / 16) (by omega) h.symm)
    · exact (hexDigit_ne_newline (c.toNat % 16) (by omega) h.symm)
  · intro hmem
    simp only [List.mem_singleton] at hmem
    exact h3 hmem.symm

theorem jsonString_no_newline (s : String) : '\n' ∉ (jsonString s).data := by
  unfold jsonString
  intro hmem
  simp only [String.data] at hmem
  rcases List.mem_cons.mp hmem with h | h
  · exact absurd h (by decide)
  · rcases List.mem_append.mp h with h2 | h2
    · rcases List.mem_flatten.mp h2 with ⟨l, hl, hmem2⟩
      rcases List.mem_map.mp hl with ⟨c, _, rfl⟩
      exact jsonEscapeChar_no_newline c hmem2
    · exact absurd (List.mem_singleton.mp h2) (by decide)

/-! ## Claim C8 -/

/-- Claim C8: the renderer formats sequences by length.  A one-element
sequence `["x"]` renders inline as exactly `["x"]`; inside a sub-mapping
entry under a recognized key, a two-element sequence `["x","y"]` renders
with a line break before the second element, whose indentation has exactly
the length of the text preceding the first element on the opening line
(alignment under the opening column); in general a sequence of two or more
elements renders its elements separated by one line break each, and no
rendered element contains an internal line break. -/
theorem C8_renderer_array_format :
    (∀ ind : String, jsonifyArray ["x"] ind = "[\x22x\x22]") ∧
    (∀ s : String, '\n' ∉ (jsonString s).data) ∧
    (∀ (ind x y key : String), key ∈ metadataProperties →
      jsonifySubEntry ind (key, MetaVal.arr [x, y]) =
        "\n  " ++ ind ++ "\x22" ++ key ++ "\x22: [" ++ jsonString x ++ ",\n" ++
          (("  " ++ ind ++ spaces16.take (5 + key.length)) ++
            (jsonString y ++ "]")) ∧
      ("  " ++ ind ++ spaces16.take (5 + key.length)).length =
        ("  " ++ ind ++ "\x22" ++ key ++ "\x22: [").length) ∧
    (∀ (xs : List String) (ind : String), 2 ≤ xs.length →
      jsonifyArray xs ind =
        "[" ++ String.intercalate (",\n  " ++ ind) (xs.map jsonString) ++ "]") := by
  have harr : ∀ (x y ci : String), jsonifyArray [x, y] ci =
      "[" ++ (jsonString x ++ (",\n  " ++ ci) ++ jsonString y) ++ "]" := by
    intro x y ci
    rw [jsonifyArray]
    · rw [List.map_cons, List.map_cons, List.map_nil, intercalate_cons₂]
      rfl
    · intro z hz
      simp at hz
  refine ⟨fun ind => rfl, jsonString_no_newline, ?_, ?_⟩
  · intro ind x y key hkey
    constructor
    · apply String.ext
      rw [jsonifySubEntry]
      dsimp only [jsonifyMetaVal]
      rw [harr]
      simp only [childArrayIndent, String.data_append]
      simp
    · simp only [metadataProperties, List.mem_cons, List.not_mem_nil, or_false]
        at hkey
      have hlen : key.length ≤ 11 := by
        rcases hkey with rfl | rfl | rfl <;> decide
      have etake : (spaces16.take (5 + key.length)).length = 5 + key.length := by
        have h1 : (spaces16.take (5 + key.length)).data
            = spaces16.data.take (5 + key.length) := String.data_take _ _
        have h2 : (spaces16.take (5 + key.length)).length
            = (spaces16.take (5 + key.length)).data.length := rfl
        rw [h2, h1, List.length_take]
        have e0 : spaces16.data.length = 16 := by decide
        rw [e0]
        omega
      have e1 : ("  " : String).length = 2 := by decide
      have e2 : ("\x22" : String).length = 1 := by decide
      have e3 : ("\x22: [" : String).length = 4 := by decide
      simp only [String.length_append, etake, e1, e2, e3]
      omega
  · intro xs ind h
    match xs with
    | x :: y :: rest =>
      rw [jsonifyArray]
      intro z hz
      simp at hz

/-- Witness for C8 at the concrete key `help`, indent `""` and elements
`"x"`, `"y"`: the two-element rendering and its alignment equation. -/
theorem C8_renderer_array_format_witness :
    jsonifySubEntry "" ("help", MetaVal.arr ["x", "y"]) =
      "\n  " ++ "" ++ "\x22" ++ "help" ++ "\x22: [" ++ jsonString "x" ++ ",\n" ++
        (("  " ++ "" ++ spaces16.take (5 + "help".length)) ++
          (jsonString "y" ++ "]")) := by
  exact (C8_renderer_array_format.2.2.1 "" "x" "y" "help" (by decide)).1

/-! ## Claim C5: round-trip helper lemmas -/

theorem skipWs_append_ws (l r : List Char) (h : l.all isWsChar = true) :
    skipWs (l ++ r) = skipWs r := by
  induction l with
  | nil => rfl
  | cons c t ih =>
    simp only [List.all_cons, Bool.and_eq_true] at h
    rw [List.cons_append, skipWs, if_pos h.1]
    exact ih h.2

theorem skipWs_not_ws (c : Char) (r : List Char) (h : isWsChar c = false) :
    skipWs (c :: r) = c :: r := by
  rw [skipWs, if_neg (by simp [h])]

theorem hexVal_hexDigit : ∀ m, m < 16 → hexVal (hexDigit m) = some m := by decide

theorem parseStringBody_map_cons {L cs rest : List Char} (c : Char)
    (h : (parseStringBody L).map (fun p => (p.val, p.rest)) = some (cs, rest)) :
    (parseStringBody L).map (fun p => (c :: p.val, p.rest)) =
      some (c :: cs, rest) := by
  cases hp : parseStringBody L with
  | none => rw [hp] at h; simp at h
  | some q =>
    rw [hp] at h
    simp only [Option.map_some', Option.some.injEq, Prod.mk.injEq] at h ⊢
    exact ⟨by rw [h.1], h.2⟩

theorem parseStringBody_escape_step {L t rest : List Char} (c e : Char)
    (hu : unescapeChar e = some c) (hne : ¬ e = 'u')
    (ih : (parseStringBody L).map (fun p => (p.val, p.rest)) = some (t, rest)) :
    (parseStringBody ('\\' :: e :: L)).map (fun p => (p.val, p.rest)) =
      some (c :: t, rest) := by
  rw [parseStringBody.eq_def]
  dsimp only
  rw [if_neg (by decide), if_pos rfl]
  rw [if_neg hne, hu]
  simp only [Option.map_map, Function.comp]
  exact parseStringBody_map_cons _ ih

theorem parseStringBody_round (cs : List Char) (rest : List Char) :
    (parseStringBody ((cs.map jsonEscapeChar).flatten ++ '\x22' :: rest)).map
      (fun p => (p.val, p.rest)) = some (cs, rest) := by
  induction cs with
  | nil =>
    simp only [List.map_nil, List.flatten_nil, List.nil_append]
    rw [parseStringBody.eq_def]
    simp
  | cons c t ih =>
    rw [List.map_cons, List.flatten_cons, List.append_assoc]
    by_cases h1 : c = '\x22'
    · have he : jsonEscapeChar c = ['\\', '\x22'] := by rw [h1]; rfl
      rw [he, List.cons_append, List.cons_append, List.nil_append]
      subst h1
      exact parseStringBody_escape_step _ _ (by decide) (by decide) ih
    · by_cases h2 : c = '\\'
      · have he : jsonEscapeChar c = ['\\', '\\'] := by rw [h2]; rfl
        rw [he, List.cons_append, List.cons_append, List.nil_append]
        subst h2
        exact parseStringBody_escape_step _ _ (by decide) (by decide) ih
      · by_cases h3 : c = '\n'
        · have he : jsonEscapeChar c = ['\\', 'n'] := by rw [h3]; rfl
          rw [he, List.cons_append, List.cons_append, List.nil_append]
          subst h3
          exact parseStringBody_escape_step _ _ (by decide) (by decide) ih
        · by_cases h4 : c = '\x0d'
          · have he : jsonEscapeChar c = ['\\', 'r'] := by rw [h4]; rfl
            rw [he, List.cons_append, List.cons_append, List.nil_append]
            subst h4
            exact parseStringBody_escape_step _ _ (by decide) (by decide) ih
          · by_cases h5 : c = '\t'
            · have he : jsonEscapeChar c = ['\\', 't'] := by rw [h5]; rfl
              rw [he, List.cons_append, List.cons_append, List.nil_append]
              subst h5
              exact parseStringBody_escape_step _ _ (by decide) (by decide) ih
            · by_cases h6 : c = '\x08'
              · have he : jsonEscapeChar c = ['\\', 'b'] := by rw [h6]; rfl
                rw [he, List.cons_append, List.cons_append, List.nil_append]
                subst h6
                exact parseStringBody_escape_step _ _ (by decide) (by decide) ih
              · by_cases h7 : c = '\x0c'
                · have he : jsonEscapeChar c = ['\\', 'f'] := by rw [h7]; rfl
                  rw [he, List.cons_append, List.cons_append, List.nil_append]
                  subst h7
                  exact parseStringBody_escape_step _ _ (by decide) (by decide) ih
                · by_cases h8 : c.toNat < 32
                  · have he : jsonEscapeChar c = ['\\', 'u', '0', '0',
                        hexDigit (c.toNat / 16), hexDigit (c.toNat % 16)] := by
                      unfold jsonEscapeChar
                      rw [if_neg h1, if_neg h2, if_neg h3, if_neg h4, if_neg h5,
                        if_neg h6, if_neg h7, if_pos h8]
                    rw [he, List.cons_append, List.cons_append, List.cons_append,
                      List.cons_append, List.cons_append, List.cons_append,
                      List.nil_append, parseStringBody.eq_def]
                    dsimp only
                    rw [if_neg (by decide), if_pos rfl, if_pos rfl]
                    have hv1 : hexVal (hexDigit (c.toNat / 16))
                        = some (c.toNat / 16) := hexVal_hexDigit _ (by omega)
                    have hv2 : hexVal (hexDigit (c.toNat % 16))
                        = some (c.toNat % 16) := hexVal_hexDigit _ (by omega)
                    have hv0 : hexVal '0' = some 0 := by decide
                    rw [hv0, hv1, hv2]
                    dsimp only
                    have hn : 4096 * 0 + 256 * 0 + 16 * (c.toNat / 16)
                        + c.toNat % 16 = c.toNat := by omega
                    rw [hn, Char.ofNat_toNat]
                    simp only [Option.map_map, Function.comp]
                    exact parseStringBody_map_cons _ ih
                  · have he : jsonEscapeChar c = [c] := by
                      unfold jsonEscapeChar
                      rw [if_neg h1, if_neg h2, if_neg h3, if_neg h4, if_neg h5,
                        if_neg h6, if_neg h7, if_neg h8]
                    rw [he, List.cons_append, List.nil_append,
                      parseStringBody.eq_def]
                    dsimp only
                    rw [if_neg h1, if_neg h2]
                    simp only [Option.map_map, Function.comp]
                    exact parseStringBody_map_cons _ ih

theorem parseStringBody_raw_round (cs : List Char) (rest : List Char)
    (hsafe : cs.all (fun c => !(c = '\x22') && !(c = '\\')) = true) :
    (parseStringBody (cs ++ '\x22' :: rest)).map (fun p => (p.val, p.rest)) =
      some (cs, rest) := by
  induction cs with
  | nil =>
    simp only [List.nil_append]
    rw [parseStringBody.eq_def]
    simp
  | cons c t ih =>
    simp only [List.all_cons, Bool.and_eq_true, Bool.not_eq_true',
      decide_eq_false_iff_not] at hsafe
    rw [List.cons_append, parseStringBody.eq_def]
    dsimp only
    rw [if_neg hsafe.1.1, if_neg hsafe.1.2]
    simp only [Option.map_map, Function.comp]
    exact parseStringBody_map_cons _ (ih hsafe.2)

/-! Unfolding equations for the parsers at the concrete head characters the
renderer produces (the well-founded definitions do not reduce
definitionally, so each needed equation is stated and proved once). -/

theorem parseJString_quote (T : List Char) :
    parseJString ('\x22' :: T) = (parseStringBody T).map (fun p =>
      ⟨String.mk p.val, skipWs p.rest,
       by
         have h1 := p.lt
         have h2 := skipWs_le p.rest
         simp only [List.length_cons]
         omega⟩) := by
  rw [parseJString.eq_def]
  rfl

theorem parseElems_bracket (rest : List Char) :
    parseElems (']' :: rest) = some ⟨[], skipWs rest, by
      have h2 := skipWs_le rest
      simp only [List.length_cons]
      omega⟩ := by
  rw [parseElems.eq_def]
  rfl

theorem parseElems_quote (T : List Char) :
    parseElems ('\x22' :: T) =
      (parseJString ('\x22' :: T)).bind (fun p =>
        parseElemsStep ('\x22' :: T) p.val p.rest p.lt) := by
  rw [parseElems.eq_def]
  rfl

theorem parseElemsStep_comma (l : List Char) (v : String) (rest2 : List Char)
    (hr : (',' :: rest2).length < l.length) :
    parseElemsStep l v (',' :: rest2) hr =
      (parseElems (skipWs rest2)).map (fun q =>
        ⟨v :: q.val, q.rest, by
          have h3 := q.lt
          have h4 := skipWs_le rest2
          simp only [List.length_cons] at hr
          omega⟩) := by
  rw [parseElemsStep.eq_def]
  rfl

theorem parseElemsStep_bracket (l : List Char) (v : String) (rest2 : List Char)
    (hr : (']' :: rest2).length < l.length) :
    parseElemsStep l v (']' :: rest2) hr =
      some ⟨[v], skipWs rest2, by
        have h3 := skipWs_le rest2
        simp only [List.length_cons] at hr
        omega⟩ := by
  rw [parseElemsStep.eq_def]
  rfl

theorem parseMetaVal_bracket (rest : List Char) :
    parseMetaVal ('[' :: rest) = (parseElems (skipWs rest)).map (fun q =>
      ⟨.arr q.val, q.rest,
       by
         have h2 := skipWs_le rest
         have h3 := q.lt
         simp only [List.length_cons]
         omega⟩) := by
  rw [parseMetaVal.eq_def]
  rfl

theorem parseMetaVal_quote (rest : List Char) :
    parseMetaVal ('\x22' :: rest) = (parseStringBody rest).map (fun q =>
      ⟨.str (String.mk q.val), skipWs q.rest,
       by
         have h2 := skipWs_le q.rest
         have h3 := q.lt
         simp only [List.length_cons]
         omega⟩) := by
  rw [parseMetaVal.eq_def]
  rfl

theorem parseTMEntries_brace (rest : List Char) :
    parseTMEntries ('\x7d' :: rest) = some ⟨[], skipWs rest, by
      have h2 := skipWs_le rest
      simp only [List.length_cons]
      omega⟩ := by
  rw [parseTMEntries.eq_def]
  rfl

theorem parseTMEntries_quote (T : List Char) :
    parseTMEntries ('\x22' :: T) =
      (parseJString ('\x22' :: T)).bind (fun k =>
        parseTMEntriesKey ('\x22' :: T) k.val k.rest k.lt) := by
  rw [parseTMEntries.eq_def]
  rfl

theorem parseTMEntriesKey_colon (l : List Char) (key : String)
    (rest2 : List Char) (hr : (':' :: rest2).length < l.length) :
    parseTMEntriesKey l key (':' :: rest2) hr =
      (parseMetaVal (skipWs rest2)).bind (fun v =>
        parseTMEntriesVal l key v.val v.rest (by
          have h3 := v.lt
          have h4 := skipWs_le rest2
          simp only [List.length_cons] at hr
          omega)) := by
  rw [parseTMEntriesKey.eq_def]
  rfl

theorem parseTMEntriesVal_comma (l : List Char) (key : String) (v : MetaVal)
    (rest3 : List Char) (hr : (',' :: rest3).length < l.length) :
    parseTMEntriesVal l key v (',' :: rest3) hr =
      (parseTMEntries (skipWs rest3)).map (fun q =>
        ⟨(key, v) :: q.val, q.rest, by
          have h3 := q.lt
          have h4 := skipWs_le rest3
          simp only [List.length_cons] at hr
          omega⟩) := by
  rw [parseTMEntriesVal.eq_def]
  rfl

theorem parseTMEntriesVal_brace (l : List Char) (key : String) (v : MetaVal)
    (rest3 : List Char) (hr : ('\x7d' :: rest3).length < l.length) :
    parseTMEntriesVal l key v ('\x7d' :: rest3) hr =
      some ⟨[(key, v)], skipWs rest3, by
        have h3 := skipWs_le rest3
        simp only [List.length_cons] at hr
        omega⟩ := by
  rw [parseTMEntriesVal.eq_def]
  rfl

theorem parseTestMetaObj_brace (rest : List Char) :
    parseTestMetaObj ('\x7b' :: rest) = (parseTMEntries (skipWs rest)).map
      (fun q => ⟨q.val, q.rest,
       by
         have h2 := skipWs_le rest
         have h3 := q.lt
         simp only [List.length_cons]
         omega⟩) := by
  rw [parseTestMetaObj.eq_def]
  rfl

theorem parseMDEntries_brace (rest : List Char) :
    parseMDEntries ('\x7d' :: rest) = some ⟨[], skipWs rest, by
      have h2 := skipWs_le rest
      simp only [List.length_cons]
      omega⟩ := by
  rw [parseMDEntries.eq_def]
  rfl

theorem parseMDEntries_quote (T : List Char) :
    parseMDEntries ('\x22' :: T) =
      (parseJString ('\x22' :: T)).bind (fun k =>
        parseMDEntriesKey ('\x22' :: T) k.val k.rest k.lt) := by
  rw [parseMDEntries.eq_def]
  rfl

theorem parseMDEntriesKey_colon (l : List Char) (key : String)
    (rest2 : List Char) (hr : (':' :: rest2).length < l.length) :
    parseMDEntriesKey l key (':' :: rest2) hr =
      (parseTestMetaObj (skipWs rest2)).bind (fun v =>
        parseMDEntriesVal l key v.val v.rest (by
          have h3 := v.lt
          have h4 := skipWs_le rest2
          simp only [List.length_cons] at hr
          omega)) := by
  rw [parseMDEntriesKey.eq_def]
  rfl

theorem parseMDEntriesVal_comma (l : List Char) (key : String) (v : TestMeta)
    (rest3 : List Char) (hr : (',' :: rest3).length < l.length) :
    parseMDEntriesVal l key v (',' :: rest3) hr =
      (parseMDEntries (skipWs rest3)).map (fun q =>
        ⟨(key, v) :: q.val, q.rest, by
          have h3 := q.lt
          have h4 := skipWs_le rest3
          simp only [List.length_cons] at hr
          omega⟩) := by
  rw [parseMDEntriesVal.eq_def]
  rfl

theorem parseMDEntriesVal_brace (l : List Char) (key : String) (v : TestMeta)
    (rest3 : List Char) (hr : ('\x7d' :: rest3).length < l.length) :
    parseMDEntriesVal l key v ('\x7d' :: rest3) hr =
      some ⟨[(key, v)], skipWs rest3, by
        have h3 := skipWs_le rest3
        simp only [List.length_cons] at hr
        omega⟩ := by
  rw [parseMDEntriesVal.eq_def]
  rfl

theorem parseMetadata_brace (rest : List Char) :
    parseMetadata ('\x7b' :: rest) =
      (parseMDEntries (skipWs rest)).map (fun q => (q.val, q.rest)) := by
  rw [parseMetadata.eq_def]
  rfl

theorem jsonString_data (s : String) : (jsonString s).data
    = '\x22' :: ((s.data.map jsonEscapeChar).flatten ++ ['\x22']) := rfl

theorem jsonString_data_append (s : String) (r : List Char) :
    (jsonString s).data ++ r
      = '\x22' :: ((s.data.map jsonEscapeChar).flatten ++ '\x22' :: r) := by
  rw [jsonString_data, List.cons_append, List.append_assoc, List.singleton_append]

theorem parseJString_round (s : String) (rest : List Char) :
    (parseJString ((jsonString s).data ++ rest)).map (fun p => (p.val, p.rest)) =
      some (s, skipWs rest) := by
  rw [jsonString_data_append, parseJString_quote]
  have h := parseStringBody_round s.data rest
  cases hp : parseStringBody ((s.data.map jsonEscapeChar).flatten ++ '\x22' :: rest) with
  | none => rw [hp] at h; simp at h
  | some q =>
    rw [hp] at h
    simp only [Option.map_some', Option.some.injEq, Prod.mk.injEq] at h ⊢
    exact ⟨by rw [h.1], by rw [h.2]⟩

theorem parseJString_raw_round (key : String) (r : List Char)
    (hsafe : nameSafe key = true) :
    (parseJString ('\x22' :: (key.data ++ '\x22' :: r))).map
      (fun p => (p.val, p.rest)) = some (key, skipWs r) := by
  rw [parseJString_quote]
  have h := parseStringBody_raw_round key.data r hsafe
  cases hp : parseStringBody (key.data ++ '\x22' :: r) with
  | none => rw [hp] at h; simp at h
  | some q =>
    rw [hp] at h
    simp only [Option.map_some', Option.some.injEq, Prod.mk.injEq] at h ⊢
    exact ⟨by rw [h.1], by rw [h.2]⟩

theorem intercalate_single (sep a : String) : String.intercalate sep [a] = a := rfl

theorem jsonifyArray_eq (xs : List String) (ind : String) :
    jsonifyArray xs ind =
      "[" ++ String.intercalate (",\n  " ++ ind) (xs.map jsonString) ++ "]" := by
  match xs with
  | [] => rfl
  | [x] => rfl
  | x :: y :: rest => rfl

theorem sep_data (ind : String) : (",\n  " ++ ind).data
    = ',' :: ('\n' :: ' ' :: ' ' :: ind.data) := by
  rw [String.data_append]
  rfl

theorem skipWs_jsonString (s : String) (r : List Char) :
    skipWs ((jsonString s).data ++ r) = (jsonString s).data ++ r := by
  rw [jsonString_data_append]
  exact skipWs_not_ws _ _ (by decide)

theorem parseElems_after_string (x : String) (r : List Char) :
    parseElems ((jsonString x).data ++ r) =
      (parseJString ((jsonString x).data ++ r)).bind (fun p =>
        parseElemsStep ((jsonString x).data ++ r) p.val p.rest p.lt) := by
  rw [jsonString_data_append, parseElems_quote]

theorem parseElems_congr_proj {l1 l2 : List Char} (h : l1 = l2) :
    (parseElems l1).map (fun p => (p.val, p.rest)) =
      (parseElems l2).map (fun p => (p.val, p.rest)) := by
  subst h
  rfl

theorem parseElems_round (xs : List String) (ind : String) (rest : List Char)
    (hind : ind.data.all isWsChar = true) :
    (parseElems (skipWs
        ((String.intercalate (",\n  " ++ ind) (xs.map jsonString)).data ++
          ']' :: rest))).map (fun p => (p.val, p.rest)) =
      some (xs, skipWs rest) := by
  induction xs with
  | nil =>
    rw [show (String.intercalate (",\n  " ++ ind) (List.map jsonString [])).data
      = [] from rfl]
    rw [List.nil_append, skipWs_not_ws _ _ (by decide), parseElems_bracket]
    rfl
  | cons x t ih =>
    cases t with
    | nil =>
      rw [List.map_cons, List.map_nil, intercalate_single]
      rw [skipWs_jsonString, parseElems_after_string]
      have h := parseJString_round x (']' :: rest)
      cases hp : parseJString ((jsonString x).data ++ ']' :: rest) with
      | none => rw [hp] at h; simp at h
      | some p =>
        rw [hp] at h
        simp only [Option.map_some', Option.some.injEq, Prod.mk.injEq] at h
        obtain ⟨pv, pr, plt⟩ := p
        simp only at h
        rw [skipWs_not_ws _ _ (by decide)] at h
        obtain ⟨h1, h2⟩ := h
        subst h1
        subst h2
        simp only [Option.some_bind]
        rw [parseElemsStep_bracket]
        rfl
    | cons y t2 =>
      rw [List.map_cons, List.map_cons, intercalate_cons₂, ← List.map_cons]
      rw [String.data_append, String.data_append, sep_data]
      rw [List.append_assoc, List.append_assoc, List.cons_append]
      rw [skipWs_jsonString, parseElems_after_string]
      have h := parseJString_round x
        (',' :: (('\n' :: ' ' :: ' ' :: ind.data) ++
          ((String.intercalate (",\n  " ++ ind)
            (List.map jsonString (y :: t2))).data ++ ']' :: rest)))
      cases hp : parseJString ((jsonString x).data ++
          ',' :: (('\n' :: ' ' :: ' ' :: ind.data) ++
            ((String.intercalate (",\n  " ++ ind)
              (List.map jsonString (y :: t2))).data ++ ']' :: rest))) with
      | none => rw [hp] at h; simp at h
      | some p =>
        rw [hp] at h
        simp only [Option.map_some', Option.some.injEq, Prod.mk.injEq] at h
        obtain ⟨pv, pr, plt⟩ := p
        simp only at h
        rw [skipWs_not_ws _ _ (by decide)] at h
        obtain ⟨h1, h2⟩ := h
        subst h1
        subst h2
        simp only [Option.some_bind]
        rw [parseElemsStep_comma]
        have hsk : skipWs (('\n' :: ' ' :: ' ' :: ind.data) ++
            ((String.intercalate (",\n  " ++ ind)
              (List.map jsonString (y :: t2))).data ++ ']' :: rest))
            = skipWs ((String.intercalate (",\n  " ++ ind)
              (List.map jsonString (y :: t2))).data ++ ']' :: rest) := by
          apply skipWs_append_ws
          simp only [List.all_cons, Bool.and_eq_true]
          exact ⟨by decide, by decide, by decide, hind⟩
        have hpe := parseElems_congr_proj hsk
        cases hq : parseElems (skipWs (('\n' :: ' ' :: ' ' :: ind.data) ++
            ((String.intercalate (",\n  " ++ ind)
              (List.map jsonString (y :: t2))).data ++ ']' :: rest))) with
        | none =>
          rw [hq] at hpe
          rw [ih] at hpe
          simp at hpe
        | some q =>
          rw [hq] at hpe
          rw [ih] at hpe
          simp only [Option.map_some', Option.some.injEq, Prod.mk.injEq] at hpe ⊢
          exact ⟨by rw [hpe.1], hpe.2⟩

theorem parseMetaVal_congr_proj {l1 l2 : List Char} (h : l1 = l2) :
    (parseMetaVal l1).map (fun p => (p.val, p.rest)) =
      (parseMetaVal l2).map (fun p => (p.val, p.rest)) := by
  subst h
  rfl

theorem parseTMEntries_congr_proj {l1 l2 : List Char} (h : l1 = l2) :
    (parseTMEntries l1).map (fun p => (p.val, p.rest)) =
      (parseTMEntries l2).map (fun p => (p.val, p.rest)) := by
  subst h
  rfl

theorem parseTestMetaObj_congr_proj {l1 l2 : List Char} (h : l1 = l2) :
    (parseTestMetaObj l1).map (fun p => (p.val, p.rest)) =
      (parseTestMetaObj l2).map (fun p => (p.val, p.rest)) := by
  subst h
  rfl

theorem parseMDEntries_congr_proj {l1 l2 : List Char} (h : l1 = l2) :
    (parseMDEntries l1).map (fun p => (p.val, p.rest)) =
      (parseMDEntries l2).map (fun p => (p.val, p.rest)) := by
  subst h
  rfl

theorem childArrayIndent_ws (ind key : String)
    (hind : ind.data.all isWsChar = true) :
    (childArrayIndent ind key).data.all isWsChar = true := by
  unfold childArrayIndent
  rw [String.data_append, List.all_append]
  simp only [Bool.and_eq_true]
  refine ⟨hind, ?_⟩
  rw [String.data_take]
  have hsp : spaces16.data.all isWsChar = true := by decide
  rw [List.all_eq_true] at hsp ⊢
  intro c hc
  exact hsp c (List.take_subset _ _ hc)

theorem parseMetaVal_round (v : MetaVal) (ind key : String) (rest : List Char)
    (hind : ind.data.all isWsChar = true) :
    (parseMetaVal ((jsonifyMetaVal v ind key).data ++ rest)).map
      (fun p => (p.val, p.rest)) = some (v, skipWs rest) := by
  cases v with
  | str s =>
    show (parseMetaVal ((jsonString s).data ++ rest)).map _ = _
    refine Eq.trans (parseMetaVal_congr_proj (jsonString_data_append s rest)) ?_
    rw [parseMetaVal_quote]
    have h := parseStringBody_round s.data rest
    cases hp : parseStringBody
        ((s.data.map jsonEscapeChar).flatten ++ '\x22' :: rest) with
    | none => rw [hp] at h; simp at h
    | some q =>
      rw [hp] at h
      simp only [Option.map_some', Option.some.injEq, Prod.mk.injEq] at h ⊢
      exact ⟨by rw [h.1], by rw [h.2]⟩
  | arr xs =>
    show (parseMetaVal
      ((jsonifyArray xs (childArrayIndent ind key)).data ++ rest)).map _ = _
    have hdata : (jsonifyArray xs (childArrayIndent ind key)).data ++ rest
        = '[' :: ((String.intercalate (",\n  " ++ childArrayIndent ind key)
          (xs.map jsonString)).data ++ ']' :: rest) := by
      rw [jsonifyArray_eq, String.data_append, String.data_append]
      rw [show ("[" : String).data = ['['] from rfl,
        show ("]" : String).data = [']'] from rfl]
      simp
    refine Eq.trans (parseMetaVal_congr_proj hdata) ?_
    rw [parseMetaVal_bracket]
    have h := parseElems_round xs (childArrayIndent ind key) rest
      (childArrayIndent_ws ind key hind)
    cases hq : parseElems (skipWs
        ((String.intercalate (",\n  " ++ childArrayIndent ind key)
          (xs.map jsonString)).data ++ ']' :: rest)) with
    | none => rw [hq] at h; simp at h
    | some q =>
      rw [hq] at h
      simp only [Option.map_some', Option.some.injEq, Prod.mk.injEq] at h ⊢
      exact ⟨by rw [h.1], h.2⟩

theorem skipWs_cons_ws (c : Char) (X : List Char) (h : isWsChar c = true) :
    skipWs (c :: X) = skipWs X := by
  rw [skipWs, if_pos h]

theorem skipWs_metaVal (v : MetaVal) (ind k : String) (S : List Char) :
    skipWs ((jsonifyMetaVal v ind k).data ++ S)
      = (jsonifyMetaVal v ind k).data ++ S := by
  cases v with
  | str s => exact skipWs_jsonString s S
  | arr xs =>
    show skipWs ((jsonifyArray xs (childArrayIndent ind k)).data ++ S) = _
    have hdata : (jsonifyArray xs (childArrayIndent ind k)).data ++ S
        = '[' :: ((String.intercalate (",\n  " ++ childArrayIndent ind k)
          (xs.map jsonString)).data ++ ']' :: S) := by
      rw [jsonifyArray_eq, String.data_append, String.data_append]
      rw [show ("[" : String).data = ['['] from rfl,
        show ("]" : String).data = [']'] from rfl]
      simp
    rw [hdata, skipWs_not_ws _ _ (by decide), ← hdata]
    rfl

theorem subEntry_skipWs (ind k : String) (v : MetaVal) (S : List Char)
    (hind : ind.data.all isWsChar = true) :
    skipWs ((jsonifySubEntry ind (k, v)).data ++ S)
      = '\x22' :: (k.data ++ '\x22' :: ':' :: ' ' ::
          ((jsonifyMetaVal v ind k).data ++ S)) := by
  have hdata : (jsonifySubEntry ind (k, v)).data ++ S
      = ['\n', ' ', ' '] ++ (ind.data ++ ('\x22' :: (k.data ++ '\x22' :: ':' ::
          ' ' :: ((jsonifyMetaVal v ind k).data ++ S)))) := by
    show ("\n  " ++ ind ++ "\x22" ++ (k, v).1 ++ "\x22: " ++
      jsonifyMetaVal (k, v).2 ind (k, v).1).data ++ S = _
    simp [String.data_append]
  rw [hdata, skipWs_append_ws _ _ (by decide), skipWs_append_ws _ _ hind,
    skipWs_not_ws _ _ (by decide)]

theorem parseTMEntries_round (tm : TestMeta) (ind : String) (W rest : List Char)
    (hind : ind.data.all isWsChar = true) (hW : W.all isWsChar = true)
    (hkeys : tm.all (fun p => nameSafe p.1) = true) :
    (parseTMEntries (skipWs
        ((String.intercalate "," (tm.map (jsonifySubEntry ind))).data ++
          (W ++ '\x7d' :: rest)))).map (fun p => (p.val, p.rest)) =
      some (tm, skipWs rest) := by
  induction tm with
  | nil =>
    rw [show (String.intercalate "," (List.map (jsonifySubEntry ind) [])).data
      = [] from rfl]
    rw [List.nil_append, skipWs_append_ws _ _ hW,
      skipWs_not_ws _ _ (by decide), parseTMEntries_brace]
    rfl
  | cons hd tl ih =>
    rcases hd with ⟨k, v⟩
    simp only [List.all_cons, Bool.and_eq_true] at hkeys
    cases tl with
    | nil =>
      rw [List.map_cons, List.map_nil, intercalate_single]
      refine Eq.trans (parseTMEntries_congr_proj
        (subEntry_skipWs ind k v (W ++ '\x7d' :: rest) hind)) ?_
      rw [parseTMEntries_quote]
      have hkey := parseJString_raw_round k
        (':' :: ' ' :: ((jsonifyMetaVal v ind k).data ++ (W ++ '\x7d' :: rest)))
        hkeys.1
      cases hp : parseJString ('\x22' :: (k.data ++ '\x22' :: ':' :: ' ' ::
          ((jsonifyMetaVal v ind k).data ++ (W ++ '\x7d' :: rest)))) with
      | none => rw [hp] at hkey; simp at hkey
      | some p =>
        rw [hp] at hkey
        simp only [Option.map_some', Option.some.injEq, Prod.mk.injEq] at hkey
        obtain ⟨pv, pr, plt⟩ := p
        simp only at hkey
        rw [skipWs_not_ws _ _ (by decide)] at hkey
        obtain ⟨hk1, hk2⟩ := hkey
        subst pv
        subst pr
        simp only [Option.some_bind]
        rw [parseTMEntriesKey_colon]
        have hZ : skipWs (' ' ::
            ((jsonifyMetaVal v ind k).data ++ (W ++ '\x7d' :: rest)))
            = (jsonifyMetaVal v ind k).data ++ (W ++ '\x7d' :: rest) := by
          rw [skipWs_cons_ws _ _ (by decide), skipWs_metaVal]
        have hval := parseMetaVal_round v ind k (W ++ '\x7d' :: rest) hind
        rw [skipWs_append_ws _ _ hW, skipWs_not_ws _ _ (by decide)] at hval
        have hvcong := Eq.trans (parseMetaVal_congr_proj hZ) hval
        cases hv : parseMetaVal (skipWs (' ' ::
            ((jsonifyMetaVal v ind k).data ++ (W ++ '\x7d' :: rest)))) with
        | none => rw [hv] at hvcong; simp at hvcong
        | some q =>
          rw [hv] at hvcong
          simp only [Option.map_some', Option.some.injEq, Prod.mk.injEq]
            at hvcong
          obtain ⟨qv, qr, qlt⟩ := q
          simp only at hvcong
          obtain ⟨hv1, hv2⟩ := hvcong
          subst qv
          subst qr
          simp only [Option.some_bind]
          rw [parseTMEntriesVal_brace]
          rfl
    | cons t ts =>
      have hsplit : (String.intercalate ","
            (List.map (jsonifySubEntry ind) ((k, v) :: t :: ts))).data ++
            (W ++ '\x7d' :: rest)
          = (jsonifySubEntry ind (k, v)).data ++ (',' ::
            ((String.intercalate ","
              (List.map (jsonifySubEntry ind) (t :: ts))).data ++
              (W ++ '\x7d' :: rest))) := by
        rw [List.map_cons, List.map_cons, intercalate_cons₂, ← List.map_cons]
        rw [String.data_append, String.data_append]
        rw [show ("," : String).data = [','] from rfl]
        simp
      have hin : skipWs ((String.intercalate ","
            (List.map (jsonifySubEntry ind) ((k, v) :: t :: ts))).data ++
            (W ++ '\x7d' :: rest))
          = '\x22' :: (k.data ++ '\x22' :: ':' :: ' ' ::
            ((jsonifyMetaVal v ind k).data ++ (',' ::
              ((String.intercalate ","
                (List.map (jsonifySubEntry ind) (t :: ts))).data ++
                (W ++ '\x7d' :: rest))))) := by
        rw [hsplit]
        exact subEntry_skipWs ind k v (',' ::
          ((String.intercalate ","
            (List.map (jsonifySubEntry ind) (t :: ts))).data ++
            (W ++ '\x7d' :: rest))) hind
      refine Eq.trans (parseTMEntries_congr_proj hin) ?_
      rw [parseTMEntries_quote]
      have hkey := parseJString_raw_round k
        (':' :: ' ' :: ((jsonifyMetaVal v ind k).data ++ (',' ::
          ((String.intercalate ","
            (List.map (jsonifySubEntry ind) (t :: ts))).data ++
            (W ++ '\x7d' :: rest))))) hkeys.1
      cases hp : parseJString ('\x22' :: (k.data ++ '\x22' :: ':' :: ' ' ::
          ((jsonifyMetaVal v ind k).data ++ (',' ::
            ((String.intercalate ","
              (List.map (jsonifySubEntry ind) (t :: ts))).data ++
              (W ++ '\x7d' :: rest)))))) with
      | none => rw [hp] at hkey; simp at hkey
      | some p =>
        rw [hp] at hkey
        simp only [Option.map_some', Option.some.injEq, Prod.mk.injEq] at hkey
        obtain ⟨pv, pr, plt⟩ := p
        simp only at hkey
        rw [skipWs_not_ws _ _ (by decide)] at hkey
        obtain ⟨hk1, hk2⟩ := hkey
        subst pv
        subst pr
        simp only [Option.some_bind]
        rw [parseTMEntriesKey_colon]
        have hZ : skipWs (' ' :: ((jsonifyMetaVal v ind k).data ++ (',' ::
            ((String.intercalate ","
              (List.map (jsonifySubEntry ind) (t :: ts))).data ++
              (W ++ '\x7d' :: rest)))))
            = (jsonifyMetaVal v ind k).data ++ (',' ::
            ((String.intercalate ","
              (List.map (jsonifySubEntry ind) (t :: ts))).data ++
              (W ++ '\x7d' :: rest))) := by
          rw [skipWs_cons_ws _ _ (by decide), skipWs_metaVal]
        have hval := parseMetaVal_round v ind k (',' ::
          ((String.intercalate ","
            (List.map (jsonifySubEntry ind) (t :: ts))).data ++
            (W ++ '\x7d' :: rest))) hind
        rw [skipWs_not_ws _ _ (by decide)] at hval
        have hvcong := Eq.trans (parseMetaVal_congr_proj hZ) hval
        cases hv : parseMetaVal (skipWs (' ' ::
            ((jsonifyMetaVal v ind k).data ++ (',' ::
              ((String.intercalate ","
                (List.map (jsonifySubEntry ind) (t :: ts))).data ++
                (W ++ '\x7d' :: rest)))))) with
        | none => rw [hv] at hvcong; simp at hvcong
        | some q =>
          rw [hv] at hvcong
          simp only [Option.map_some', Option.some.injEq, Prod.mk.injEq]
            at hvcong
          obtain ⟨qv, qr, qlt⟩ := q
          simp only at hvcong
          obtain ⟨hv1, hv2⟩ := hvcong
          subst qv
          subst qr
          simp only [Option.some_bind]
          rw [parseTMEntriesVal_comma]
          have hpe := parseTMEntries_congr_proj (rfl :
            skipWs ((String.intercalate ","
              (List.map (jsonifySubEntry ind) (t :: ts))).data ++
              (W ++ '\x7d' :: rest)) = _)
          have ihx := ih hkeys.2
          cases hq : parseTMEntries (skipWs ((String.intercalate ","
              (List.map (jsonifySubEntry ind) (t :: ts))).data ++
              (W ++ '\x7d' :: rest))) with
          | none => rw [hq] at ihx; simp at ihx
          | some q2 =>
            rw [hq] at ihx
            simp only [Option.map_some', Option.some.injEq, Prod.mk.injEq]
              at ihx ⊢
            exact ⟨by rw [ihx.1], ihx.2⟩

theorem jsonifyTestMeta_data (tm : TestMeta) (ind : String) (rest : List Char)
    (hind : ind.data.all isWsChar = true) :
    ∃ W : List Char, W.all isWsChar = true ∧
      (jsonifyTestMeta tm ind).data ++ rest
        = '\x7b' :: ((String.intercalate ","
            (tm.map (jsonifySubEntry ind))).data ++ (W ++ '\x7d' :: rest)) := by
  by_cases hb : (String.intercalate "," (tm.map (jsonifySubEntry ind))).length > 0
  · refine ⟨'\n' :: ind.data, ?_, ?_⟩
    · simp only [List.all_cons, Bool.and_eq_true]
      exact ⟨by decide, hind⟩
    · show ("\x7b" ++ _ ++ (if _ > 0 then "\n" ++ ind else "") ++ "\x7d").data
        ++ rest = _
      rw [if_pos hb]
      simp [String.data_append]
  · refine ⟨[], by decide, ?_⟩
    show ("\x7b" ++ _ ++ (if _ > 0 then "\n" ++ ind else "") ++ "\x7d").data
      ++ rest = _
    rw [if_neg hb]
    simp [String.data_append]

theorem skipWs_testMeta (tm : TestMeta) (ind : String) (S : List Char)
    (hind : ind.data.all isWsChar = true) :
    skipWs ((jsonifyTestMeta tm ind).data ++ S)
      = (jsonifyTestMeta tm ind).data ++ S := by
  obtain ⟨W, _, hdata⟩ := jsonifyTestMeta_data tm ind S hind
  rw [hdata, skipWs_not_ws _ _ (by decide), ← hdata]

theorem parseTestMetaObj_round (tm : TestMeta) (ind : String) (rest : List Char)
    (hind : ind.data.all isWsChar = true)
    (hkeys : tm.all (fun p => nameSafe p.1) = true) :
    (parseTestMetaObj ((jsonifyTestMeta tm ind).data ++ rest)).map
      (fun p => (p.val, p.rest)) = some (tm, skipWs rest) := by
  obtain ⟨W, hW, hdata⟩ := jsonifyTestMeta_data tm ind rest hind
  refine Eq.trans (parseTestMetaObj_congr_proj hdata) ?_
  rw [parseTestMetaObj_brace]
  have h := parseTMEntries_round tm ind W rest hind hW hkeys
  cases hq : parseTMEntries (skipWs ((String.intercalate ","
      (tm.map (jsonifySubEntry ind))).data ++ (W ++ '\x7d' :: rest))) with
  | none => rw [hq] at h; simp at h
  | some q =>
    rw [hq] at h
    simp only [Option.map_some', Option.some.injEq, Prod.mk.injEq] at h ⊢
    exact ⟨by rw [h.1], h.2⟩

theorem mapEntry_skipWs (ind name : String) (sub : TestMeta) (S : List Char)
    (hind : ind.data.all isWsChar = true) :
    skipWs ((jsonifyMapEntry ind (name, sub)).data ++ S)
      = '\x22' :: (name.data ++ '\x22' :: ':' :: ' ' ::
          ((jsonifyTestMeta sub (ind ++ "  ")).data ++ S)) := by
  have hdata : (jsonifyMapEntry ind (name, sub)).data ++ S
      = ['\n', ' ', ' '] ++ (ind.data ++ ('\x22' :: (name.data ++ '\x22' ::
          ':' :: ' ' :: ((jsonifyTestMeta sub (ind ++ "  ")).data ++ S)))) := by
    show ("\n  " ++ ind ++ "\x22" ++ (name, sub).1 ++ "\x22: " ++
      jsonifyTestMeta (name, sub).2 (ind ++ "  ")).data ++ S = _
    simp [String.data_append]
  rw [hdata, skipWs_append_ws _ _ (by decide), skipWs_append_ws _ _ hind,
    skipWs_not_ws _ _ (by decide)]

theorem indent_two_ws (ind : String) (hind : ind.data.all isWsChar = true) :
    (ind ++ "  ").data.all isWsChar = true := by
  rw [String.data_append, List.all_append]
  simp only [Bool.and_eq_true]
  exact ⟨hind, by decide⟩

theorem parseMDEntries_round (m : MetaMap) (ind : String) (W rest : List Char)
    (hind : ind.data.all isWsChar = true) (hW : W.all isWsChar = true)
    (hkeys : m.all (fun p => nameSafe p.1 &&
      p.2.all (fun q => nameSafe q.1)) = true) :
    (parseMDEntries (skipWs
        ((String.intercalate "," (m.map (jsonifyMapEntry ind))).data ++
          (W ++ '\x7d' :: rest)))).map (fun p => (p.val, p.rest)) =
      some (m, skipWs rest) := by
  induction m with
  | nil =>
    rw [show (String.intercalate "," (List.map (jsonifyMapEntry ind) [])).data
      = [] from rfl]
    rw [List.nil_append, skipWs_append_ws _ _ hW,
      skipWs_not_ws _ _ (by decide), parseMDEntries_brace]
    rfl
  | cons hd tl ih =>
    rcases hd with ⟨nm, sub⟩
    simp only [List.all_cons, Bool.and_eq_true] at hkeys
    cases tl with
    | nil =>
      rw [List.map_cons, List.map_nil, intercalate_single]
      refine Eq.trans (parseMDEntries_congr_proj
        (mapEntry_skipWs ind nm sub (W ++ '\x7d' :: rest) hind)) ?_
      rw [parseMDEntries_quote]
      have hkey := parseJString_raw_round nm
        (':' :: ' ' :: ((jsonifyTestMeta sub (ind ++ "  ")).data ++
          (W ++ '\x7d' :: rest))) hkeys.1.1
      cases hp : parseJString ('\x22' :: (nm.data ++ '\x22' :: ':' :: ' ' ::
          ((jsonifyTestMeta sub (ind ++ "  ")).data ++
            (W ++ '\x7d' :: rest)))) with
      | none => rw [hp] at hkey; simp at hkey
      | some p =>
        rw [hp] at hkey
        simp only [Option.map_some', Option.some.injEq, Prod.mk.injEq] at hkey
        obtain ⟨pv, pr, plt⟩ := p
        simp only at hkey
        rw [skipWs_not_ws _ _ (by decide)] at hkey
        obtain ⟨hk1, hk2⟩ := hkey
        subst pv
        subst pr
        simp only [Option.some_bind]
        rw [parseMDEntriesKey_colon]
        have hZ : skipWs (' ' :: ((jsonifyTestMeta sub (ind ++ "  ")).data ++
            (W ++ '\x7d' :: rest)))
            = (jsonifyTestMeta sub (ind ++ "  ")).data ++
              (W ++ '\x7d' :: rest) := by
          rw [skipWs_cons_ws _ _ (by decide),
            skipWs_testMeta _ _ _ (indent_two_ws ind hind)]
        have hval := parseTestMetaObj_round sub (ind ++ "  ")
          (W ++ '\x7d' :: rest) (indent_two_ws ind hind) hkeys.1.2
        rw [skipWs_append_ws _ _ hW, skipWs_not_ws _ _ (by decide)] at hval
        have hvcong := Eq.trans (parseTestMetaObj_congr_proj hZ) hval
        cases hv : parseTestMetaObj (skipWs (' ' ::
            ((jsonifyTestMeta sub (ind ++ "  ")).data ++
              (W ++ '\x7d' :: rest)))) with
        | none => rw [hv] at hvcong; simp at hvcong
        | some q =>
          rw [hv] at hvcong
          simp only [Option.map_some', Option.some.injEq, Prod.mk.injEq]
            at hvcong
          obtain ⟨qv, qr, qlt⟩ := q
          simp only at hvcong
          obtain ⟨hv1, hv2⟩ := hvcong
          subst qv
          subst qr
          simp only [Option.some_bind]
          rw [parseMDEntriesVal_brace]
          rfl
    | cons t ts =>
      have hsplit : (String.intercalate ","
            (List.map (jsonifyMapEntry ind) ((nm, sub) :: t :: ts))).data ++
            (W ++ '\x7d' :: rest)
          = (jsonifyMapEntry ind (nm, sub)).data ++ (',' ::
            ((String.intercalate ","
              (List.map (jsonifyMapEntry ind) (t :: ts))).data ++
              (W ++ '\x7d' :: rest))) := by
        rw [List.map_cons, List.map_cons, intercalate_cons₂, ← List.map_cons]
        rw [String.data_append, String.data_append]
        rw [show ("," : String).data = [','] from rfl]
        simp
      have hin : skipWs ((String.intercalate ","
            (List.map (jsonifyMapEntry ind) ((nm, sub) :: t :: ts))).data ++
            (W ++ '\x7d' :: rest))
          = '\x22' :: (nm.data ++ '\x22' :: ':' :: ' ' ::
            ((jsonifyTestMeta sub (ind ++ "  ")).data ++ (',' ::
              ((String.intercalate ","
                (List.map (jsonifyMapEntry ind) (t :: ts))).data ++
                (W ++ '\x7d' :: rest))))) := by
        rw [hsplit]
        exact mapEntry_skipWs ind nm sub (',' ::
          ((String.intercalate ","
            (List.map (jsonifyMapEntry ind) (t :: ts))).data ++
            (W ++ '\x7d' :: rest))) hind
      refine Eq.trans (parseMDEntries_congr_proj hin) ?_
      rw [parseMDEntries_quote]
      have hkey := parseJString_raw_round nm
        (':' :: ' ' :: ((jsonifyTestMeta sub (ind ++ "  ")).data ++ (',' ::
          ((String.intercalate ","
            (List.map (jsonifyMapEntry ind) (t :: ts))).data ++
            (W ++ '\x7d' :: rest))))) hkeys.1.1
      cases hp : parseJString ('\x22' :: (nm.data ++ '\x22' :: ':' :: ' ' ::
          ((jsonifyTestMeta sub (ind ++ "  ")).data ++ (',' ::
            ((String.intercalate ","
              (List.map (jsonifyMapEntry ind) (t :: ts))).data ++
              (W ++ '\x7d' :: rest)))))) with
      | none => rw [hp] at hkey; simp at hkey
      | some p =>
        rw [hp] at hkey
        simp only [Option.map_some', Option.some.injEq, Prod.mk.injEq] at hkey
        obtain ⟨pv, pr, plt⟩ := p
        simp only at hkey
        rw [skipWs_not_ws _ _ (by decide)] at hkey
        obtain ⟨hk1, hk2⟩ := hkey
        subst pv
        subst pr
        simp only [Option.some_bind]
        rw [parseMDEntriesKey_colon]
        have hZ : skipWs (' ' :: ((jsonifyTestMeta sub (ind ++ "  ")).data ++
            (',' :: ((String.intercalate ","
              (List.map (jsonifyMapEntry ind) (t :: ts))).data ++
              (W ++ '\x7d' :: rest)))))
            = (jsonifyTestMeta sub (ind ++ "  ")).data ++
              (',' :: ((String.intercalate ","
                (List.map (jsonifyMapEntry ind) (t :: ts))).data ++
                (W ++ '\x7d' :: rest))) := by
          rw [skipWs_cons_ws _ _ (by decide),
            skipWs_testMeta _ _ _ (indent_two_ws ind hind)]
        have hval := parseTestMetaObj_round sub (ind ++ "  ")
          (',' :: ((String.intercalate ","
            (List.map (jsonifyMapEntry ind) (t :: ts))).data ++
            (W ++ '\x7d' :: rest))) (indent_two_ws ind hind) hkeys.1.2
        rw [skipWs_not_ws _ _ (by decide)] at hval
        have hvcong := Eq.trans (parseTestMetaObj_congr_proj hZ) hval
        cases hv : parseTestMetaObj (skipWs (' ' ::
            ((jsonifyTestMeta sub (ind ++ "  ")).data ++
              (',' :: ((String.intercalate ","
                (List.map (jsonifyMapEntry ind) (t :: ts))).data ++
                (W ++ '\x7d' :: rest)))))) with
        | none => rw [hv] at hvcong; simp at hvcong
        | some q =>
          rw [hv] at hvcong
          simp only [Option.map_some', Option.some.injEq, Prod.mk.injEq]
            at hvcong
          obtain ⟨qv, qr, qlt⟩ := q
          simp only at hvcong
          obtain ⟨hv1, hv2⟩ := hvcong
          subst qv
          subst qr
          simp only [Option.some_bind]
          rw [parseMDEntriesVal_comma]
          have ihx := ih hkeys.2
          cases hq : parseMDEntries (skipWs ((String.intercalate ","
              (List.map (jsonifyMapEntry ind) (t :: ts))).data ++
              (W ++ '\x7d' :: rest))) with
          | none => rw [hq] at ihx; simp at ihx
          | some q2 =>
            rw [hq] at ihx
            simp only [Option.map_some', Option.some.injEq, Prod.mk.injEq]
              at ihx ⊢
            exact ⟨by rw [ihx.1], ihx.2⟩

theorem jsonifyMetadata_data (m : MetaMap) (ind : String) (rest : List Char)
    (hind : ind.data.all isWsChar = true) :
    ∃ W : List Char, W.all isWsChar = true ∧
      (jsonifyMetadata m ind).data ++ rest
        = '\x7b' :: ((String.intercalate ","
            (m.map (jsonifyMapEntry ind))).data ++ (W ++ '\x7d' :: rest)) := by
  by_cases hb : (String.intercalate "," (m.map (jsonifyMapEntry ind))).length > 0
  · refine ⟨'\n' :: ind.data, ?_, ?_⟩
    · simp only [List.all_cons, Bool.and_eq_true]
      exact ⟨by decide, hind⟩
    · show ("\x7b" ++ _ ++ (if _ > 0 then "\n" ++ ind else "") ++ "\x7d").data
        ++ rest = _
      rw [if_pos hb]
      simp [String.data_append]
  · refine ⟨[], by decide, ?_⟩
    show ("\x7b" ++ _ ++ (if _ > 0 then "\n" ++ ind else "") ++ "\x7d").data
      ++ rest = _
    rw [if_neg hb]
    simp [String.data_append]

theorem parseMetadata_round (m : MetaMap) (rest : List Char)
    (hkeys : m.all (fun p => nameSafe p.1 &&
      p.2.all (fun q => nameSafe q.1)) = true) :
    parseMetadata ((jsonifyMetadata m "").data ++ rest)
      = some (m, skipWs rest) := by
  obtain ⟨W, hW, hdata⟩ := jsonifyMetadata_data m "" rest (by decide)
  rw [hdata, parseMetadata_brace]
  exact parseMDEntries_round m "" W rest (by decide) hW hkeys

theorem extractFromTest_key_mem {props : List (String × MetaVal)}
    {p : String × MetaVal} (hp : p ∈ extractFromTest props) :
    p.1 ∈ metadataProperties := by
  unfold extractFromTest at hp
  rcases List.mem_filterMap.mp hp with ⟨meta, hmeta, hmap⟩
  cases hl : props.lookup meta with
  | none => rw [hl] at hmap; simp at hmap
  | some v =>
    rw [hl] at hmap
    simp only [Option.map_some', Option.some.injEq] at hmap
    rw [← hmap]
    exact hmeta

theorem extractFromTest_keys_safe (props : List (String × MetaVal)) :
    (extractFromTest props).all (fun q => nameSafe q.1) = true := by
  rw [List.all_eq_true]
  intro q hq
  have hmem := extractFromTest_key_mem hq
  simp only [metadataProperties, List.mem_cons, List.not_mem_nil, or_false]
    at hmem
  rcases hmem with h | h | h <;> rw [h] <;> decide

/-! ## Claim C5 -/

/-- Counterexample to C5 as stated: a Test Record whose name contains a
double quote (here `a"b`) breaks the round trip.  The renderer embeds test
names raw and unescaped as object keys, so the produced literal is
malformed at the key and parsing fails (yields no mapping at all) rather
than recovering the extracted mapping. -/
theorem C5_roundtrip_counterexample :
    extractFromTest ([] : List (String × MetaVal)) = [] ∧
    parseMetadata ((jsonifyMetadata [("a\x22b", [])] "").data) = none := by
  refine ⟨rfl, ?_⟩
  have hdata : (jsonifyMetadata [("a\x22b", ([] : TestMeta))] "").data
      = ['\x7b', '\n', ' ', ' ', '\x22', 'a', '\x22', 'b', '\x22', ':', ' ',
         '\x7b', '\x7d', '\n', '\x7d'] := by decide
  rw [hdata, parseMetadata_brace]
  have hsk : skipWs ['\n', ' ', ' ', '\x22', 'a', '\x22', 'b', '\x22', ':',
      ' ', '\x7b', '\x7d', '\n', '\x7d']
      = ['\x22', 'a', '\x22', 'b', '\x22', ':', ' ', '\x7b', '\x7d', '\n',
         '\x7d'] := by decide
  refine Eq.trans (parseMDEntries_congr_proj hsk) ?_
  rw [parseMDEntries_quote]
  have hko : ∀ (l : List Char) (key : String) (X : List Char)
      (hr : ('b' :: X).length < l.length),
      parseMDEntriesKey l key ('b' :: X) hr = none := by
    intro l key X hr
    rw [parseMDEntriesKey.eq_def]
    rfl
  have hj : (parseJString ['\x22', 'a', '\x22', 'b', '\x22', ':', ' ',
      '\x7b', '\x7d', '\n', '\x7d']).map (fun p => (p.val, p.rest))
      = some ("a", ['b', '\x22', ':', ' ', '\x7b', '\x7d', '\n', '\x7d']) := by
    rfl
  cases hp : parseJString ['\x22', 'a', '\x22', 'b', '\x22', ':', ' ',
      '\x7b', '\x7d', '\n', '\x7d'] with
  | none => rw [hp] at hj; simp at hj
  | some p =>
    rw [hp] at hj
    simp only [Option.map_some', Option.some.injEq, Prod.mk.injEq] at hj
    obtain ⟨pv, pr, plt⟩ := p
    simp only at hj
    obtain ⟨h1, h2⟩ := hj
    subst pv
    subst pr
    simp only [Option.some_bind]
    rw [hko]
    rfl

/-- Claim C5 (amended: restricted to Test Records whose name contains
neither a double quote nor a backslash — names are embedded raw and
unescaped as object keys by the renderer): rendering the extracted
metadata round-trips.  `generateSource` wraps the pretty-printed literal in
the fixed script template, and parsing that literal recovers a mapping
equal to the extracted mapping, with nothing left over. -/
theorem C5_roundtrip_amended (name : String) (props : List (String × MetaVal))
    (hname : nameSafe name = true) :
    (generateSource [(name, extractFromTest props)] =
      "<script id=\x22test_metadata\x22>\n" ++ "var cached_metadata = " ++
        jsonifyMetadata [(name, extractFromTest props)] "" ++ "\n" ++
        "</script>\n") ∧
    parseMetadata ((jsonifyMetadata [(name, extractFromTest props)] "").data)
      = some ([(name, extractFromTest props)], []) := by
  refine ⟨rfl, ?_⟩
  have h := parseMetadata_round [(name, extractFromTest props)] []
    (by
      simp only [List.all_cons, List.all_nil, Bool.and_eq_true]
      exact ⟨⟨hname, extractFromTest_keys_safe props⟩, trivial⟩)
  rw [List.append_nil] at h
  exact h

/-- Witness for C5's amended theorem at a concrete safe record. -/
theorem C5_roundtrip_amended_witness :
    parseMetadata ((jsonifyMetadata
        [("t1", extractFromTest [("help", MetaVal.arr ["h1"])])] "").data)
      = some ([("t1", extractFromTest [("help", MetaVal.arr ["h1"])])], []) :=
  (C5_roundtrip_amended "t1" [("help", MetaVal.arr ["h1"])] (by decide)).2

end TestharnessReport
